import Mathlib

/-!
Verification of the password-based authenticated-encryption envelope of
`src/utils/crypto-utils.ts` (the Envelope Crypto Core).

The module under verification composes three layers:
 * a KDF wrapper (`deriveKey`, PBKDF2-SHA-256 with 100000 iterations over
   a 16-byte salt, 32-byte key),
 * an authenticated cipher wrapper (`secretBox` / `secretBoxOpen`, AES-256-GCM
   taking the first 12 bytes of a 24-byte nonce as IV, ciphertext carries the
   16-byte GCM tag),
 * an envelope codec (`encryptedDataToBase64` / `base64ToEncryptedData` plus
   JSON serialization in `encryptToJSON` / `decryptFromJSON`).

The cryptographic primitives themselves (WebCrypto's PBKDF2 and AES-GCM,
the HTML `btoa`/`atob` codec, `JSON.parse`/`JSON.stringify`, `TextEncoder`)
are platform functions, not code of this repository; they are modelled here,
each marked `Modelled from the spec:` in its doc comment.  AES-GCM and PBKDF2
are modelled as ideal primitives in the usual symbolic style: the GCM tag's
leading entry stores an injective encoding of (key fingerprint, IV, plaintext),
so that authenticity is perfect rather than merely computationally
overwhelming; PBKDF2's leading key entry likewise stores an injective encoding
of (hash, iterations, password bytes, salt).  Those ideal entries exceed 255,
so the base64 model gains an injective token branch used only for them; all
genuine byte data takes the exact forgiving-base64 path of the HTML standard.
Bytes are Lean `Nat`s, byte strings are `List Nat`, JS strings are `List Char`,
randomness is an explicit entropy stream `Nat → Nat`, and fallible operations
return `Option`/`Except`.
-/

/-- Auxiliary: maximum of a list of naturals (0 for the empty list). -/
def listMax (l : List Nat) : Nat := l.foldr max 0

/-- Auxiliary: positional value of `l` in base `B`, using digits `a + 1`.
Injective on lists whose entries satisfy `a + 1 < B`. -/
def posVal (B : Nat) (l : List Nat) : Nat := l.foldr (fun a acc => acc * B + (a + 1)) 0

/-- Auxiliary: injective encoding of an arbitrary `List Nat` into `Nat`:
pair the base `listMax l + 2` with the positional value in that base. -/
def encL (l : List Nat) : Nat := Nat.pair (listMax l + 2) (posVal (listMax l + 2) l)

/-- Modelled from the spec: UTF-8 bytes of one unicode scalar value. -/
def utf8EncodeChar (c : Char) : List Nat :=
  let n := c.toNat
  if n < 128 then [n]
  else if n < 2048 then [192 + n / 64, 128 + n % 64]
  else if n < 65536 then [224 + n / 4096, 128 + (n / 64) % 64, 128 + n % 64]
  else [240 + n / 262144, 128 + (n / 4096) % 64, 128 + (n / 64) % 64, 128 + n % 64]

/-- Modelled from the spec: `TextEncoder().encode` — canonical UTF-8 bytes of
a list of unicode scalar values. -/
def utf8Bytes : List Char → List Nat
  | [] => []
  | c :: rest => utf8EncodeChar c ++ utf8Bytes rest

/-- Modelled from the spec: `TextEncoder().encode` on a string. -/
def utf8Encode (s : String) : List Nat := utf8Bytes s.data

/-- Injective encoding of a string (via its UTF-8 bytes). -/
def encStr (s : String) : Nat := encL (utf8Encode s)

/-- Fingerprint through which the ideal GCM tag depends on the key.  Keys
produced by the ideal PBKDF2 model are determined by their maximal entry. -/
def keyFP (key : List Nat) : Nat := listMax key

/-- Injective encoding of (key fingerprint, IV, plaintext) for the ideal tag. -/
def enc3 (key iv pt : List Nat) : Nat :=
  Nat.pair (keyFP key) (Nat.pair (encL iv) (encL pt))

/-- GCM authentication-tag length in bytes (128-bit tag). -/
def TAG_LENGTH : Nat := 16

/-- Modelled from the spec: the AES-GCM authentication tag, idealized.  Its
leading entry `256 + enc3 key iv pt` injectively records key fingerprint, IV
and plaintext (and, being at least 256, is distinguishable from any byte);
the remaining 15 entries pad the tag to its real 16-byte length. -/
def gcmTag (key iv pt : List Nat) : List Nat :=
  (256 + enc3 key iv pt) :: List.replicate (TAG_LENGTH - 1) 0

/-- Modelled from the spec: `crypto.subtle.encrypt` with AES-GCM — returns
ciphertext with the authentication tag appended.  The ideal model keeps the
plaintext bytes in place; confidentiality is not the subject of any claim,
authenticity and lengths are. -/
def aesGcmEncrypt (key iv pt : List Nat) : List Nat := pt ++ gcmTag key iv pt

/-- Modelled from the spec: `crypto.subtle.decrypt` with AES-GCM — fails
(`none`) when the data is shorter than the tag or the tag does not verify;
otherwise returns the plaintext.  In the ideal model decryption succeeds
exactly on the image of `aesGcmEncrypt` for the same key and IV. -/
def aesGcmDecrypt (key iv ct : List Nat) : Option (List Nat) :=
  if ct.length < TAG_LENGTH then none
  else
    let body := ct.take (ct.length - TAG_LENGTH)
    if ct.drop (ct.length - TAG_LENGTH) = gcmTag key iv body then some body else none

/-- Modelled from the spec: PBKDF2 key derivation, idealized.  Produces
exactly `dkLen` entries; the leading entry injectively records the hash name,
iteration count, password bytes and salt, standing in for the collision
resistance of the real iterated hash. -/
def pbkdf2 (hash : String) (iters : Nat) (passwordBytes salt : List Nat)
    (dkLen : Nat) : List Nat :=
  if dkLen = 0 then []
  else
    (256 + Nat.pair (Nat.pair (encStr hash) iters)
        (Nat.pair (encL passwordBytes) (encL salt))) :: List.replicate (dkLen - 1) 0

/-- Source constant: PBKDF2 algorithm name. -/
def ALGORITHM : String := "PBKDF2"

/-- Source constant: 32-byte (256-bit) derived key. -/
def KEY_LENGTH : Nat := 32

/-- Source constant: PBKDF2 iteration count. -/
def ITERATIONS : Nat := 100000

/-- Source constant: PBKDF2 inner hash. -/
def HASH : String := "SHA-256"

/-- Source constant: envelope nonce length in bytes. -/
def NONCE_LENGTH : Nat := 24

/-- Source constant: KDF salt length in bytes. -/
def SALT_LENGTH : Nat := 16

/-- Modelled from the spec: `crypto.getRandomValues` — reads `n` fresh bytes
from the entropy stream starting at offset `off`. -/
def getRandomValues (entropy : Nat → Nat) (off n : Nat) : List Nat :=
  (List.range n).map (fun i => entropy (off + i) % 256)

/-- Result of `deriveKey`: the derived key and the salt that was used. -/
structure KeySalt where
  key : List Nat
  salt : List Nat
deriving DecidableEq

/-- Embedding of source `deriveKey(password, salt?)`: uses the given salt or
generates `SALT_LENGTH` random bytes, UTF-8-encodes the password, and derives
`KEY_LENGTH` bytes by PBKDF2 with `HASH` and `ITERATIONS`. -/
def deriveKey (password : String) (salt : Option (List Nat))
    (entropy : Nat → Nat) : KeySalt :=
  let usedSalt := salt.getD (getRandomValues entropy 0 SALT_LENGTH)
  let passwordData := utf8Encode password
  { key := pbkdf2 HASH ITERATIONS passwordData usedSalt KEY_LENGTH, salt := usedSalt }

/-- Embedding of source `secretBox(plaintext, key, nonce?)`: uses the given
nonce or generates `NONCE_LENGTH` random bytes, encrypts with AES-GCM using
the first 12 nonce bytes as IV, and prepends the nonce to the ciphertext. -/
def secretBox (plaintext key : List Nat) (nonce : Option (List Nat))
    (entropy : Nat → Nat) : List Nat :=
  let usedNonce := nonce.getD (getRandomValues entropy 0 NONCE_LENGTH)
  usedNonce ++ aesGcmEncrypt key (usedNonce.take 12) plaintext

/-- The spec's error taxonomy (section 7).  The source surfaces untyped
platform exceptions; following the spec, failures raised while parsing a
serialized envelope are `malformedEnvelope` and cipher verification failures
are `authenticationFailed`. -/
inductive CryptoError where
  | cryptoUnavailable
  | malformedEnvelope
  | authenticationFailed
deriving DecidableEq

/-- Embedding of source `secretBoxOpen(ciphertext, key)`: splits off the
`NONCE_LENGTH`-byte nonce, uses its first 12 bytes as IV, and decrypts;
a cipher failure is the spec's `AuthenticationFailed`. -/
def secretBoxOpen (ciphertext key : List Nat) : Except CryptoError (List Nat) :=
  let nonce := ciphertext.take NONCE_LENGTH
  let encrypted := ciphertext.drop NONCE_LENGTH
  match aesGcmDecrypt key (nonce.take 12) encrypted with
  | some pt => .ok pt
  | none => .error .authenticationFailed

/-- The Envelope: source interface `EncryptedData`. -/
structure EncryptedData where
  ciphertext : List Nat
  nonce : List Nat
  salt : List Nat
deriving DecidableEq

/-- Source `encrypt` accepts `string | Uint8Array`. -/
inductive PlainInput where
  | text (s : String)
  | bytes (b : List Nat)

/-- The source's entry conversion: text is UTF-8 encoded, bytes pass through. -/
def PlainInput.toBytes : PlainInput → List Nat
  | .text s => utf8Encode s
  | .bytes b => b

/-- Embedding of source `encrypt(plaintext, password)`: derive key with a
fresh salt (entropy offsets 0..15), generate a fresh 24-byte nonce (offsets
16..39), seal with `secretBox`, and strip the prepended nonce off the
`secretBox` result. -/
def encrypt (plaintext : PlainInput) (password : String)
    (entropy : Nat → Nat) : EncryptedData :=
  let data := plaintext.toBytes
  let ks := deriveKey password none entropy
  let nonce := getRandomValues entropy SALT_LENGTH NONCE_LENGTH
  let secretBoxed := secretBox data ks.key (some nonce) entropy
  { ciphertext := secretBoxed.drop NONCE_LENGTH, nonce := nonce, salt := ks.salt }

/-- Embedding of source `decrypt(encryptedData, password)`: re-derive the key
from the stored salt (no randomness is consumed), reconstruct the
`nonce ++ ciphertext` secretBox format, and open it. -/
def decrypt (encryptedData : EncryptedData) (password : String) :
    Except CryptoError (List Nat) :=
  let ks := deriveKey password (some encryptedData.salt) (fun _ => 0)
  let toDecrypt := encryptedData.nonce ++ encryptedData.ciphertext
  secretBoxOpen toDecrypt ks.key

/-- Base64 alphabet: index 0..63 to character. -/
def sixToChar (n : Nat) : Char :=
  if n < 26 then Char.ofNat (65 + n)
  else if n < 52 then Char.ofNat (97 + (n - 26))
  else if n < 62 then Char.ofNat (48 + (n - 52))
  else if n = 62 then '+' else '/'

/-- Base64 alphabet: character to index 0..63 (`none` off the alphabet). -/
def charToSix (c : Char) : Option Nat :=
  let n := c.toNat
  if 65 ≤ n ∧ n ≤ 90 then some (n - 65)
  else if 97 ≤ n ∧ n ≤ 122 then some (26 + (n - 97))
  else if 48 ≤ n ∧ n ≤ 57 then some (52 + (n - 48))
  else if c = '+' then some 62
  else if c = '/' then some 63
  else none

/-- Bytes to base64 indices, three bytes to four six-bit groups, the last
group of one or two bytes to two or three groups. -/
def indexEncode : List Nat → List Nat
  | [] => []
  | [a] => [a / 4, (a % 4) * 16]
  | [a, b] => [a / 4, (a % 4) * 16 + b / 16, (b % 16) * 4]
  | a :: b :: c :: rest =>
      (a / 4) :: ((a % 4) * 16 + b / 16) :: ((b % 16) * 4 + c / 64) :: (c % 64) ::
        indexEncode rest

/-- Base64 indices back to bytes, inverse chunking of `indexEncode`. -/
def decodeIdxs : List Nat → List Nat
  | i1 :: i2 :: i3 :: i4 :: rest =>
      (i1 * 4 + i2 / 16) :: ((i2 % 16) * 16 + i3 / 4) :: ((i3 % 4) * 64 + i4) ::
        decodeIdxs rest
  | [i1, i2] => [i1 * 4 + i2 / 16]
  | [i1, i2, i3] => [i1 * 4 + i2 / 16, (i2 % 16) * 16 + i3 / 4]
  | _ => []

/-- Number of `=` padding characters for a byte string of length `n`. -/
def padLen (n : Nat) : Nat := (3 - n % 3) % 3

/-- Modelled from the spec: the HTML `btoa` on a binary string — standard
base64 with `=` padding. -/
def b64encode (l : List Nat) : List Char :=
  (indexEncode l).map sixToChar ++ List.replicate (padLen l.length) '='

/-- ASCII whitespace ignored by forgiving-base64 decode. -/
def isB64Ws (c : Char) : Bool :=
  c = ' ' ∨ c = '\t' ∨ c = '\n' ∨ c = '\r' ∨ c.toNat = 12

/-- Forgiving-base64 step: when the length is a multiple of four, remove up
to two trailing `=` characters. -/
def dropTrailingEq (l : List Char) : List Char :=
  match l.reverse with
  | c1 :: c2 :: r =>
    if c1 = '=' then (if c2 = '=' then r.reverse else (c2 :: r).reverse) else l
  | [c1] => if c1 = '=' then [] else l
  | [] => l

/-- Map every character to its base64 index, failing off the alphabet. -/
def charsToSixes : List Char → Option (List Nat)
  | [] => some []
  | c :: rest =>
    match charToSix c, charsToSixes rest with
    | some i, some is => some (i :: is)
    | _, _ => none

/-- Modelled from the spec: the HTML forgiving-base64 decode used by `atob`:
strip ASCII whitespace, strip up to two trailing `=` when the length is a
multiple of four, reject length 1 mod 4 and any character off the alphabet,
then decode four six-bit groups to three bytes (two or three trailing groups
to one or two bytes). -/
def forgivingB64 (s : List Char) : Option (List Nat) :=
  let t := s.filter (fun c => !(isB64Ws c))
  let t2 := if t.length % 4 = 0 then dropTrailingEq t else t
  if t2.length % 4 = 1 then none
  else (charsToSixes t2).map decodeIdxs

/-- Decimal digit character. -/
def digitChar (d : Nat) : Char := Char.ofNat (48 + d)

/-- Little-endian decimal digits of `n` (fuel-driven so that the kernel can
evaluate it). -/
def natDigitsAux : Nat → Nat → List Char
  | 0, _ => []
  | fuel + 1, n =>
    if n < 10 then [digitChar n] else digitChar (n % 10) :: natDigitsAux fuel (n / 10)

/-- Little-endian decimal digits of `n`. -/
def natDigits (n : Nat) : List Char := natDigitsAux (n + 1) n

/-- Decimal digit test. -/
def isDigitCh (c : Char) : Bool := 48 ≤ c.toNat ∧ c.toNat ≤ 57

/-- Value of little-endian decimal digits. -/
def digitsToNat (ds : List Char) : Nat :=
  ds.foldr (fun c acc => acc * 10 + (c.toNat - 48)) 0

/-- Injective star-separated decimal rendering of an arbitrary `List Nat`.
Only ideal-model tag entries (which exceed 255 and therefore are not bytes)
are ever rendered this way; real AES-GCM output is bytes and takes the
genuine base64 path. -/
def tokenEncode (l : List Nat) : List Char :=
  l.foldr (fun n acc => '*' :: natDigits n ++ acc) []

/-- Inverse of `tokenEncode` (fuel-driven). -/
def tokenDecodeAux : Nat → List Char → Option (List Nat)
  | 0, _ => none
  | _ + 1, [] => some []
  | fuel + 1, '*' :: rest =>
    let ds := rest.takeWhile isDigitCh
    let rest2 := rest.dropWhile isDigitCh
    if ds.isEmpty then none
    else
      match tokenDecodeAux fuel rest2 with
      | some ns => some (digitsToNat ds :: ns)
      | none => none
  | _ + 1, _ => none

/-- Inverse of `tokenEncode`. -/
def tokenDecode (s : List Char) : Option (List Nat) := tokenDecodeAux (s.length + 1) s

/-- Embedding of the source helper `arrayToBase64` (binary string + `btoa`):
genuine bytes take the exact base64 path; lists containing an ideal-model
entry of 256 or more take the injective token path (see module comment). -/
def arrayToBase64 (arr : List Nat) : List Char :=
  if arr.all (fun b => decide (b < 256)) then b64encode arr else tokenEncode arr

/-- Embedding of the source helper composition `stringToBytes(atob(s))`:
strings containing `*` (reachable only from the token path, `*` is not in the
base64 alphabet) are token-decoded, anything else is forgiving-base64. -/
def atobBytes (s : List Char) : Option (List Nat) :=
  if s.any (fun c => decide (c = '*')) then tokenDecode s else forgivingB64 s

/-- Source interface `EncryptedDataBase64`. -/
structure EncryptedDataBase64 where
  ciphertext : List Char
  nonce : List Char
  salt : List Char
deriving DecidableEq

/-- Embedding of source `encryptedDataToBase64`. -/
def encryptedDataToBase64 (data : EncryptedData) : EncryptedDataBase64 :=
  { ciphertext := arrayToBase64 data.ciphertext
    nonce := arrayToBase64 data.nonce
    salt := arrayToBase64 data.salt }

/-- JSON values as produced by `JSON.parse`.  Numbers keep their raw text
(no claim inspects a numeric field). -/
inductive JSValue where
  | jnull
  | jtrue
  | jfalse
  | jnum (raw : List Char)
  | jstr (s : List Char)
  | jarr (elems : List JSValue)
  | jobj (fields : List (List Char × JSValue))

/-- JSON insignificant whitespace. -/
def isJsonWs (c : Char) : Bool := c = ' ' ∨ c = '\t' ∨ c = '\n' ∨ c = '\r'

/-- Skip JSON whitespace. -/
def skipWs (s : List Char) : List Char := s.dropWhile isJsonWs

/-- Hexadecimal digit value. -/
def hexVal (c : Char) : Option Nat :=
  let n := c.toNat
  if 48 ≤ n ∧ n ≤ 57 then some (n - 48)
  else if 65 ≤ n ∧ n ≤ 70 then some (n - 55)
  else if 97 ≤ n ∧ n ≤ 102 then some (n - 87)
  else none

/-- The opening-brace character (written numerically, see `rbraceChar`). -/
def lbraceChar : Char := Char.ofNat 123

/-- The closing-brace character. -/
def rbraceChar : Char := Char.ofNat 125

/-- Decode one escape sequence character (the character after `\`). -/
def escDecode (e : Char) : Option Char :=
  if e = '"' then some '"'
  else if e = '\\' then some '\\'
  else if e = '/' then some '/'
  else if e = 'b' then some (Char.ofNat 8)
  else if e = 'f' then some (Char.ofNat 12)
  else if e = 'n' then some '\n'
  else if e = 'r' then some '\r'
  else if e = 't' then some '\t'
  else none

/-- Parse the body of a JSON string after the opening quote, handling escape
sequences, up to and including the closing quote.  Returns the decoded string
and the remaining input.  (`\u` escapes are decoded as scalar values;
surrogate pairing is not modelled, no claim exercises it.) -/
def parseStringBody : List Char → Option (List Char × List Char)
  | [] => none
  | c :: rest =>
    if c = '"' then some ([], rest)
    else if c = '\\' then
      match rest with
      | [] => none
      | e :: r =>
        if e = 'u' then
          match r with
          | a :: b :: c2 :: d :: r2 =>
            (match hexVal a, hexVal b, hexVal c2, hexVal d with
             | some x1, some x2, some x3, some x4 =>
               (parseStringBody r2).map
                 (fun p => (Char.ofNat (x1 * 4096 + x2 * 256 + x3 * 16 + x4) :: p.1, p.2))
             | _, _, _, _ => none)
          | _ => none
        else
          match escDecode e with
          | some d => (parseStringBody r).map (fun p => (d :: p.1, p.2))
          | none => none
    else if c.toNat < 32 then none
    else (parseStringBody rest).map (fun p => (c :: p.1, p.2))

/-- Parse an optional JSON fraction part. -/
def parseFrac (s : List Char) : Option (List Char × List Char) :=
  match s with
  | [] => some ([], s)
  | c :: rest =>
    if c = '.' then
      let ds := rest.takeWhile isDigitCh
      if ds.isEmpty then none else some ('.' :: ds, rest.dropWhile isDigitCh)
    else some ([], s)

/-- Parse an optional JSON exponent part. -/
def parseExp (s : List Char) : Option (List Char × List Char) :=
  match s with
  | [] => some ([], s)
  | c :: rest =>
    if c = 'e' ∨ c = 'E' then
      match rest with
      | [] => none
      | c2 :: rest2 =>
        if c2 = '+' ∨ c2 = '-' then
          let ds := rest2.takeWhile isDigitCh
          if ds.isEmpty then none
          else some (c :: c2 :: ds, rest2.dropWhile isDigitCh)
        else
          let ds := rest.takeWhile isDigitCh
          if ds.isEmpty then none else some (c :: ds, rest.dropWhile isDigitCh)
    else some ([], s)

/-- The integer-fraction-exponent tail of a JSON number after an optional
sign. -/
def parseNumCore (t : List Char) (sign : List Char) : Option (List Char × List Char) :=
  let ds := t.takeWhile isDigitCh
  if ds.isEmpty then none
  else
    match parseFrac (t.dropWhile isDigitCh) with
    | none => none
    | some (fr, r1) =>
      match parseExp r1 with
      | none => none
      | some (ex, r2) => some (sign ++ ds ++ fr ++ ex, r2)

/-- Parse a JSON number as raw text (slightly lax: leading zeros are
accepted; no claim involves numeric fields). -/
def parseNum (s : List Char) : Option (List Char × List Char) :=
  match s with
  | [] => none
  | c :: rest => if c = '-' then parseNumCore rest ['-'] else parseNumCore s []

/-- Remainder of `s` after the expected prefix `p`, `none` if `p` is not a
prefix of `s`. -/
def dropExpected : List Char → List Char → Option (List Char)
  | [], s => some s
  | _ :: _, [] => none
  | p :: ps, c :: cs => if c = p then dropExpected ps cs else none

mutual

/-- Modelled from the spec: `JSON.parse`, value parser (fuel-driven
recursive descent).  Returns the value and the remaining input. -/
def parseVal : Nat → List Char → Option (JSValue × List Char)
  | 0, _ => none
  | fuel + 1, s =>
    match skipWs s with
    | [] => none
    | c :: rest =>
      if c = 'n' then
        match dropExpected ['u', 'l', 'l'] rest with
        | some r => some (.jnull, r)
        | none => none
      else if c = 't' then
        match dropExpected ['r', 'u', 'e'] rest with
        | some r => some (.jtrue, r)
        | none => none
      else if c = 'f' then
        match dropExpected ['a', 'l', 's', 'e'] rest with
        | some r => some (.jfalse, r)
        | none => none
      else if c = '"' then (parseStringBody rest).map (fun p => (.jstr p.1, p.2))
      else if c = '[' then
        match skipWs rest with
        | [] => none
        | c2 :: r =>
          if c2 = ']' then some (.jarr [], r)
          else (parseElems fuel rest).map (fun p => (.jarr p.1, p.2))
      else if c = lbraceChar then
        match skipWs rest with
        | [] => none
        | c2 :: r =>
          if c2 = rbraceChar then some (.jobj [], r)
          else (parseFields fuel rest).map (fun p => (.jobj p.1, p.2))
      else (parseNum (c :: rest)).map (fun p => (.jnum p.1, p.2))

/-- Array elements after the opening bracket (at least one element). -/
def parseElems : Nat → List Char → Option (List JSValue × List Char)
  | 0, _ => none
  | fuel + 1, s =>
    match parseVal fuel s with
    | none => none
    | some (v, r) =>
      match skipWs r with
      | [] => none
      | c2 :: r2 =>
        if c2 = ',' then (parseElems fuel r2).map (fun p => (v :: p.1, p.2))
        else if c2 = ']' then some ([v], r2)
        else none

/-- Object members after the opening brace (at least one member). -/
def parseFields : Nat → List Char → Option (List (List Char × JSValue) × List Char)
  | 0, _ => none
  | fuel + 1, s =>
    match skipWs s with
    | [] => none
    | c :: rest =>
      if c = '"' then
        match parseStringBody rest with
        | none => none
        | some (key, r) =>
          match skipWs r with
          | [] => none
          | c2 :: r2 =>
            if c2 = ':' then
              match parseVal fuel r2 with
              | none => none
              | some (v, r3) =>
                match skipWs r3 with
                | [] => none
                | c4 :: r4 =>
                  if c4 = ',' then
                    (parseFields fuel r4).map (fun p => ((key, v) :: p.1, p.2))
                  else if c4 = rbraceChar then some ([(key, v)], r4)
                  else none
            else none
      else none

end

/-- Modelled from the spec: `JSON.parse` — parse a complete JSON text,
requiring only whitespace to remain. -/
def jsonParse (s : List Char) : Option JSValue :=
  match parseVal (2 * s.length + 16) s with
  | some (v, rest) => if skipWs rest = [] then some v else none
  | none => none

/-- JS member access `obj.key`: `none` is JS `undefined` (missing member or
non-object).  For objects with duplicate keys `JSON.parse` keeps the last
occurrence, hence the reverse lookup. -/
def getField (v : JSValue) (key : List Char) : Option JSValue :=
  match v with
  | .jobj fields => (fields.reverse.find? (fun f => decide (f.1 = key))).map (fun f => f.2)
  | _ => none

mutual

/-- Modelled from the spec: JS `ToString` on a JSON value (arrays join their
elements with commas; the special empty rendering of null elements inside
arrays is not modelled, no claim exercises it). -/
def jsToStringV : JSValue → List Char
  | .jnull => 'n' :: 'u' :: 'l' :: 'l' :: []
  | .jtrue => 't' :: 'r' :: 'u' :: 'e' :: []
  | .jfalse => 'f' :: 'a' :: 'l' :: 's' :: 'e' :: []
  | .jnum raw => raw
  | .jstr s => s
  | .jarr es => jsArrToString es
  | .jobj _ =>
    '[' :: 'o' :: 'b' :: 'j' :: 'e' :: 'c' :: 't' :: ' ' ::
      'O' :: 'b' :: 'j' :: 'e' :: 'c' :: 't' :: ']' :: []

/-- JS `Array.prototype.toString`: elements joined by commas. -/
def jsArrToString : List JSValue → List Char
  | [] => []
  | [v] => jsToStringV v
  | v :: rest => jsToStringV v ++ ',' :: jsArrToString rest

end

/-- Modelled from the spec: WebIDL `DOMString` coercion applied by `atob` to
its argument: `undefined` becomes the string "undefined", `null` becomes
"null", strings pass through. -/
def jsToString : Option JSValue → List Char
  | none => "undefined".data
  | some v => jsToStringV v

/-- Embedding of source `base64ToEncryptedData` as it executes at runtime on
the three member values of the parsed JSON (fields evaluated in source
order: ciphertext, nonce, salt). -/
def base64ToEncryptedData (cf nf sf : Option JSValue) : Option EncryptedData :=
  match atobBytes (jsToString cf) with
  | none => none
  | some cb =>
    match atobBytes (jsToString nf) with
    | none => none
    | some nb =>
      match atobBytes (jsToString sf) with
      | none => none
      | some sb => some { ciphertext := cb, nonce := nb, salt := sb }

/-- Lowercase hexadecimal digit. -/
def hexDigit (n : Nat) : Char := if n < 10 then Char.ofNat (48 + n) else Char.ofNat (87 + n)

/-- JSON string escaping of one character as `JSON.stringify` performs it. -/
def escChar (c : Char) : List Char :=
  if c = '"' then ['\\', '"']
  else if c = '\\' then ['\\', '\\']
  else if c = Char.ofNat 8 then ['\\', 'b']
  else if c = '\t' then ['\\', 't']
  else if c = '\n' then ['\\', 'n']
  else if c = Char.ofNat 12 then ['\\', 'f']
  else if c = '\r' then ['\\', 'r']
  else if c.toNat < 32 then ['\\', 'u', '0', '0', hexDigit (c.toNat / 16), hexDigit (c.toNat % 16)]
  else [c]

/-- JSON string escaping as `JSON.stringify` performs it. -/
def jsonEscape (s : List Char) : List Char := s.foldr (fun c acc => escChar c ++ acc) []

/-- Modelled from the spec: `JSON.stringify` on the three-string-field
envelope object, members in insertion order, no insignificant whitespace. -/
def stringifyEnvelope (b : EncryptedDataBase64) : List Char :=
  "\x7b\"ciphertext\":\"".data ++ jsonEscape b.ciphertext
    ++ "\",\"nonce\":\"".data ++ jsonEscape b.nonce
    ++ "\",\"salt\":\"".data ++ jsonEscape b.salt ++ "\"\x7d".data

/-- Embedding of source `encryptToJSON(plaintext, password)`. -/
def encryptToJSON (plaintext : PlainInput) (password : String)
    (entropy : Nat → Nat) : List Char :=
  stringifyEnvelope (encryptedDataToBase64 (encrypt plaintext password entropy))

/-- Embedding of source `decryptFromJSON(jsonString, password)`: parse the
JSON, decode the three base64 members, decrypt, and render the plaintext
bytes as a character-per-byte string.  Parse-stage failures are the spec's
`MalformedEnvelope`; decrypt failures propagate verbatim. -/
def decryptFromJSON (jsonString : List Char) (password : String) :
    Except CryptoError (List Char) :=
  match jsonParse jsonString with
  | none => .error .malformedEnvelope
  | some parsed =>
    match base64ToEncryptedData (getField parsed "ciphertext".data)
        (getField parsed "nonce".data) (getField parsed "salt".data) with
    | none => .error .malformedEnvelope
    | some encrypted =>
      match decrypt encrypted password with
      | .ok decrypted => .ok (decrypted.map Char.ofNat)
      | .error e => .error e

deriving instance DecidableEq for Except

/-- The serialization side of the envelope codec at the text level, as
`encryptToJSON` composes it. -/
def serializeEnvelope (e : EncryptedData) : List Char :=
  stringifyEnvelope (encryptedDataToBase64 e)

/-- The parsing side of the envelope codec at the text level, as
`decryptFromJSON` composes it (everything before the call to `decrypt`). -/
def parseEnvelopeText (s : List Char) : Option EncryptedData :=
  match jsonParse s with
  | none => none
  | some parsed =>
    base64ToEncryptedData (getField parsed "ciphertext".data)
      (getField parsed "nonce".data) (getField parsed "salt".data)

/-- Flip bit `j` of the byte at position `i` (identity beyond the length). -/
def flipByteBit (l : List Nat) (i j : Nat) : List Nat :=
  l.set i (l.getD i 0 ^^^ 2 ^ j)

/-- Characters that JSON escaping leaves alone and the JSON string parser
consumes verbatim. -/
def isPlainChar (c : Char) : Bool :=
  c ≠ '"' ∧ c ≠ '\\' ∧ 32 ≤ c.toNat

/-! ## Injectivity of the ideal-model encodings -/

theorem le_listMax_of_mem {a : Nat} {l : List Nat} (h : a ∈ l) : a ≤ listMax l := by
  induction l with
  | nil => cases h
  | cons b t ih =>
    rcases List.mem_cons.mp h with rfl | hm
    · exact le_max_left _ _
    · exact le_trans (ih hm) (le_max_right _ _)

theorem posVal_cons (B a : Nat) (t : List Nat) :
    posVal B (a :: t) = posVal B t * B + (a + 1) := rfl

theorem posVal_nil (B : Nat) : posVal B [] = 0 := rfl

theorem posVal_inj (B : Nat) (l1 : List Nat) : ∀ (l2 : List Nat),
    (∀ a ∈ l1, a + 1 < B) → (∀ a ∈ l2, a + 1 < B) →
    posVal B l1 = posVal B l2 → l1 = l2 := by
  induction l1 with
  | nil =>
    intro l2 _ h2 he
    cases l2 with
    | nil => rfl
    | cons b u =>
      exfalso
      rw [posVal_nil, posVal_cons] at he
      exact absurd he.symm (Nat.pos_iff_ne_zero.mp (Nat.add_pos_right _ (Nat.succ_pos b)))
  | cons a t ih =>
    intro l2 h1 h2 he
    cases l2 with
    | nil =>
      exfalso
      rw [posVal_cons, posVal_nil] at he
      exact absurd he (Nat.pos_iff_ne_zero.mp (Nat.add_pos_right _ (Nat.succ_pos a)))
    | cons b u =>
      rw [posVal_cons, posVal_cons] at he
      have ha : a + 1 < B := h1 a (List.mem_cons_self a t)
      have hb : b + 1 < B := h2 b (List.mem_cons_self b u)
      have hB : 0 < B := by omega
      have e1 := Nat.mul_add_mod' (posVal B t) B (a + 1)
      have e2 := Nat.mul_add_mod' (posVal B u) B (b + 1)
      have hmod : (a + 1) % B = (b + 1) % B := by rw [← e1, ← e2, he]
      rw [Nat.mod_eq_of_lt ha, Nat.mod_eq_of_lt hb] at hmod
      have hab : a = b := by omega
      subst hab
      have hmul : posVal B t * B = posVal B u * B := Nat.add_right_cancel he
      have ht : t = u := ih u (fun x hx => h1 x (List.mem_cons_of_mem a hx))
        (fun x hx => h2 x (List.mem_cons_of_mem a hx))
        (Nat.eq_of_mul_eq_mul_right hB hmul)
      rw [ht]

theorem encL_inj {l1 l2 : List Nat} (h : encL l1 = encL l2) : l1 = l2 := by
  unfold encL at h
  have h' := congrArg Nat.unpair h
  rw [Nat.unpair_pair, Nat.unpair_pair] at h'
  have hB : listMax l1 + 2 = listMax l2 + 2 := congrArg Prod.fst h'
  have hv : posVal (listMax l1 + 2) l1 = posVal (listMax l2 + 2) l2 := congrArg Prod.snd h'
  rw [← hB] at hv
  exact posVal_inj (listMax l1 + 2) l1 l2
    (fun a ha => by have := le_listMax_of_mem ha; omega)
    (fun a ha => by have := le_listMax_of_mem ha; rw [hB]; omega) hv

theorem char_toNat_inj {c1 c2 : Char} (h : c1.toNat = c2.toNat) : c1 = c2 :=
  Char.ext (UInt32.ext h)

theorem char_toNat_lt (c : Char) : c.toNat < 1114112 := by
  rcases c.valid with h | ⟨_, h⟩ <;> simp only [Char.toNat] <;> omega

theorem utf8_char_cases (c : Char) :
    (c.toNat < 128 ∧ utf8EncodeChar c = [c.toNat]) ∨
    (128 ≤ c.toNat ∧ c.toNat < 2048 ∧
      utf8EncodeChar c = [192 + c.toNat / 64, 128 + c.toNat % 64]) ∨
    (2048 ≤ c.toNat ∧ c.toNat < 65536 ∧
      utf8EncodeChar c =
        [224 + c.toNat / 4096, 128 + (c.toNat / 64) % 64, 128 + c.toNat % 64]) ∨
    (65536 ≤ c.toNat ∧ c.toNat < 1114112 ∧
      utf8EncodeChar c =
        [240 + c.toNat / 262144, 128 + (c.toNat / 4096) % 64, 128 + (c.toNat / 64) % 64,
          128 + c.toNat % 64]) := by
  have hv := char_toNat_lt c
  simp only [utf8EncodeChar]
  split_ifs with h1 h2 h3
  · exact Or.inl ⟨h1, rfl⟩
  · exact Or.inr (Or.inl ⟨by omega, h2, rfl⟩)
  · exact Or.inr (Or.inr (Or.inl ⟨by omega, h3, rfl⟩))
  · exact Or.inr (Or.inr (Or.inr ⟨by omega, hv, rfl⟩))

theorem utf8EncodeChar_ne_nil (c : Char) : utf8EncodeChar c ≠ [] := by
  rcases utf8_char_cases c with ⟨_, he⟩ | ⟨_, _, he⟩ | ⟨_, _, he⟩ | ⟨_, _, he⟩ <;>
    rw [he] <;> simp

theorem utf8EncodeChar_append_inj {c1 c2 : Char} {r1 r2 : List Nat}
    (h : utf8EncodeChar c1 ++ r1 = utf8EncodeChar c2 ++ r2) : c1 = c2 ∧ r1 = r2 := by
  rcases utf8_char_cases c1 with ⟨ha1, he1⟩ | ⟨ha1, hb1, he1⟩ | ⟨ha1, hb1, he1⟩ | ⟨ha1, hb1, he1⟩ <;>
    rcases utf8_char_cases c2 with ⟨ha2, he2⟩ | ⟨ha2, hb2, he2⟩ | ⟨ha2, hb2, he2⟩ | ⟨ha2, hb2, he2⟩ <;>
    rw [he1, he2] at h <;>
    simp only [List.cons_append, List.nil_append, List.cons.injEq] at h <;>
    try exact absurd h.1 (by omega)
  · exact ⟨char_toNat_inj h.1, h.2⟩
  · exact ⟨char_toNat_inj (by have e1 := h.1; have e2 := h.2.1; omega), h.2.2⟩
  · exact ⟨char_toNat_inj
      (by have e1 := h.1; have e2 := h.2.1; have e3 := h.2.2.1; omega), h.2.2.2⟩
  · exact ⟨char_toNat_inj
      (by have e1 := h.1; have e2 := h.2.1; have e3 := h.2.2.1; have e4 := h.2.2.2.1; omega),
      h.2.2.2.2⟩

theorem utf8Bytes_inj : ∀ (l1 l2 : List Char), utf8Bytes l1 = utf8Bytes l2 → l1 = l2 := by
  intro l1
  induction l1 with
  | nil =>
    intro l2 h
    cases l2 with
    | nil => rfl
    | cons c t =>
      exfalso
      rw [show utf8Bytes [] = [] from rfl, show utf8Bytes (c :: t) = utf8EncodeChar c ++ utf8Bytes t from rfl] at h
      rcases List.append_eq_nil.mp h.symm with ⟨hc, _⟩
      exact utf8EncodeChar_ne_nil c hc
  | cons c t ih =>
    intro l2 h
    cases l2 with
    | nil =>
      exfalso
      rw [show utf8Bytes [] = [] from rfl, show utf8Bytes (c :: t) = utf8EncodeChar c ++ utf8Bytes t from rfl] at h
      rcases List.append_eq_nil.mp h with ⟨hc, _⟩
      exact utf8EncodeChar_ne_nil c hc
    | cons d u =>
      rw [show utf8Bytes (c :: t) = utf8EncodeChar c ++ utf8Bytes t from rfl,
        show utf8Bytes (d :: u) = utf8EncodeChar d ++ utf8Bytes u from rfl] at h
      obtain ⟨hc, hr⟩ := utf8EncodeChar_append_inj h
      rw [hc, ih u hr]

theorem utf8Encode_inj {s t : String} (h : utf8Encode s = utf8Encode t) : s = t := by
  have hd : s.data = t.data := utf8Bytes_inj s.data t.data h
  cases s; cases t; congr

theorem enc3_components {k1 i1 p1 k2 i2 p2 : List Nat}
    (h : enc3 k1 i1 p1 = enc3 k2 i2 p2) : keyFP k1 = keyFP k2 ∧ i1 = i2 ∧ p1 = p2 := by
  unfold enc3 at h
  have h1 := congrArg Nat.unpair h
  rw [Nat.unpair_pair, Nat.unpair_pair] at h1
  have hk : keyFP k1 = keyFP k2 := congrArg Prod.fst h1
  have h2 : Nat.pair (encL i1) (encL p1) = Nat.pair (encL i2) (encL p2) :=
    congrArg Prod.snd h1
  have h3 := congrArg Nat.unpair h2
  rw [Nat.unpair_pair, Nat.unpair_pair] at h3
  exact ⟨hk, encL_inj (congrArg Prod.fst h3), encL_inj (congrArg Prod.snd h3)⟩

theorem gcmTag_length (key iv pt : List Nat) : (gcmTag key iv pt).length = TAG_LENGTH := by
  simp [gcmTag, TAG_LENGTH]

theorem gcmTag_components {k1 i1 p1 k2 i2 p2 : List Nat}
    (h : gcmTag k1 i1 p1 = gcmTag k2 i2 p2) :
    keyFP k1 = keyFP k2 ∧ i1 = i2 ∧ p1 = p2 := by
  unfold gcmTag at h
  have hh : 256 + enc3 k1 i1 p1 = 256 + enc3 k2 i2 p2 := (List.cons.injEq _ _ _ _ ▸ h).1
  exact enc3_components (by omega)

theorem gcmTag_head_ge (key iv pt : List Nat) : 256 ≤ (gcmTag key iv pt).headI := by
  simp [gcmTag]

/-! ## Structure of `encrypt` and `decrypt` -/

theorem getRandomValues_length (entropy : Nat → Nat) (off n : Nat) :
    (getRandomValues entropy off n).length = n := by
  simp [getRandomValues]

theorem getRandomValues_bytes (entropy : Nat → Nat) (off n : Nat) :
    ∀ b ∈ getRandomValues entropy off n, b < 256 := by
  intro b hb
  simp only [getRandomValues, List.mem_map] at hb
  obtain ⟨i, _, rfl⟩ := hb
  exact Nat.mod_lt _ (by omega)

theorem pbkdf2_length (hash : String) (iters : Nat) (pw salt : List Nat) :
    (pbkdf2 hash iters pw salt KEY_LENGTH).length = KEY_LENGTH := by
  simp [pbkdf2, KEY_LENGTH]

theorem listMax_cons (a : Nat) (l : List Nat) : listMax (a :: l) = max a (listMax l) := rfl

theorem listMax_replicate_zero : ∀ n, listMax (List.replicate n (0 : Nat)) = 0
  | 0 => rfl
  | n + 1 => by
    rw [List.replicate_succ, listMax_cons, listMax_replicate_zero n]
    simp

/-- The value through which the ideal derived key records its inputs. -/
theorem pbkdf2_keyFP (hash : String) (iters : Nat) (pw salt : List Nat) :
    keyFP (pbkdf2 hash iters pw salt KEY_LENGTH) =
      256 + Nat.pair (Nat.pair (encStr hash) iters) (Nat.pair (encL pw) (encL salt)) := by
  show keyFP ((256 + Nat.pair (Nat.pair (encStr hash) iters)
      (Nat.pair (encL pw) (encL salt))) :: List.replicate 31 0) = _
  rw [show ∀ (a : Nat) (l : List Nat), keyFP (a :: l) = max a (listMax l) from
    fun a l => rfl]
  rw [listMax_replicate_zero]
  exact Nat.max_zero _

theorem encrypt_nonce (plaintext : PlainInput) (password : String) (entropy : Nat → Nat) :
    (encrypt plaintext password entropy).nonce =
      getRandomValues entropy SALT_LENGTH NONCE_LENGTH := rfl

theorem encrypt_salt (plaintext : PlainInput) (password : String) (entropy : Nat → Nat) :
    (encrypt plaintext password entropy).salt = getRandomValues entropy 0 SALT_LENGTH := rfl

theorem encrypt_ciphertext (plaintext : PlainInput) (password : String) (entropy : Nat → Nat) :
    (encrypt plaintext password entropy).ciphertext =
      plaintext.toBytes ++
        gcmTag (deriveKey password none entropy).key
          ((getRandomValues entropy SALT_LENGTH NONCE_LENGTH).take 12) plaintext.toBytes := by
  show (getRandomValues entropy SALT_LENGTH NONCE_LENGTH ++
      aesGcmEncrypt (deriveKey password none entropy).key
        ((getRandomValues entropy SALT_LENGTH NONCE_LENGTH).take 12)
        plaintext.toBytes).drop NONCE_LENGTH = _
  rw [List.drop_left' (getRandomValues_length entropy SALT_LENGTH NONCE_LENGTH)]
  rfl

theorem decrypt_eq (e : EncryptedData) (password : String)
    (hn : e.nonce.length = NONCE_LENGTH) :
    decrypt e password =
      match aesGcmDecrypt (deriveKey password (some e.salt) (fun _ => 0)).key
          (e.nonce.take 12) e.ciphertext with
      | some pt => .ok pt
      | none => .error .authenticationFailed := by
  show (match aesGcmDecrypt (deriveKey password (some e.salt) (fun _ => 0)).key
      (((e.nonce ++ e.ciphertext).take NONCE_LENGTH).take 12)
      ((e.nonce ++ e.ciphertext).drop NONCE_LENGTH) with
    | some pt => Except.ok pt
    | none => Except.error CryptoError.authenticationFailed) = _
  rw [List.take_left' hn, List.drop_left' hn]

theorem aesGcmDecrypt_of_encrypt (key iv pt : List Nat) :
    aesGcmDecrypt key iv (aesGcmEncrypt key iv pt) = some pt := by
  unfold aesGcmDecrypt aesGcmEncrypt
  have hlen : (pt ++ gcmTag key iv pt).length = pt.length + TAG_LENGTH := by
    rw [List.length_append, gcmTag_length]
  rw [hlen, if_neg (Nat.not_lt.mpr (Nat.le_add_left TAG_LENGTH pt.length)),
    Nat.add_sub_cancel, List.take_left, List.drop_left, if_pos rfl]

theorem aesGcmDecrypt_append_tag_ne (k1 k2 iv1 iv2 pt : List Nat)
    (hne : keyFP k2 ≠ keyFP k1 ∨ iv2 ≠ iv1) :
    aesGcmDecrypt k2 iv2 (pt ++ gcmTag k1 iv1 pt) = none := by
  unfold aesGcmDecrypt
  have hlen : (pt ++ gcmTag k1 iv1 pt).length = pt.length + TAG_LENGTH := by
    rw [List.length_append, gcmTag_length]
  rw [hlen, if_neg (Nat.not_lt.mpr (Nat.le_add_left TAG_LENGTH pt.length)),
    Nat.add_sub_cancel, List.take_left, List.drop_left, if_neg]
  intro h
  obtain ⟨hk, hiv, _⟩ := gcmTag_components h
  rcases hne with hne | hne
  · exact hne hk.symm
  · exact hne hiv.symm

theorem set_xor_ne {l : List Nat} {i : Nat} (j : Nat) (hi : i < l.length) :
    l.set i (l.getD i 0 ^^^ 2 ^ j) ≠ l := by
  intro h
  have h2 := congrArg (fun x => x.getD i 0) h
  simp only [List.getD_eq_getElem?_getD, List.getElem?_set_self hi, Option.getD_some] at h2
  have h3 : l.getD i 0 ^^^ 2 ^ j = l.getD i 0 := by
    rw [List.getD_eq_getElem?_getD]
    exact h2
  have h4 : (2 : Nat) ^ j = 0 := by
    have h5 : l.getD i 0 ^^^ (l.getD i 0 ^^^ 2 ^ j) = l.getD i 0 ^^^ l.getD i 0 :=
      congrArg (fun z => l.getD i 0 ^^^ z) h3
    rwa [← Nat.xor_assoc, Nat.xor_self, Nat.zero_xor] at h5
  exact absurd h4 (Nat.pos_iff_ne_zero.mp (Nat.pos_pow_of_pos j (by omega)))

theorem aesGcmDecrypt_flip (key iv pt : List Nat) (i j : Nat)
    (hi : i < pt.length + TAG_LENGTH) :
    aesGcmDecrypt key iv (flipByteBit (pt ++ gcmTag key iv pt) i j) = none := by
  have htag : (gcmTag key iv pt).length = TAG_LENGTH := gcmTag_length ..
  rcases Nat.lt_or_ge i pt.length with hlt | hge
  · -- the flip lands in the body: the recorded tag no longer matches
    have hgd : (pt ++ gcmTag key iv pt).getD i 0 = pt.getD i 0 := by
      simp only [List.getD_eq_getElem?_getD]
      rw [List.getElem?_append_left hlt]
    have hset : flipByteBit (pt ++ gcmTag key iv pt) i j =
        pt.set i (pt.getD i 0 ^^^ 2 ^ j) ++ gcmTag key iv pt := by
      unfold flipByteBit
      rw [hgd, List.set_append_left _ _ hlt]
    rw [hset]
    unfold aesGcmDecrypt
    have hlen : (pt.set i (pt.getD i 0 ^^^ 2 ^ j) ++ gcmTag key iv pt).length =
        pt.length + TAG_LENGTH := by
      rw [List.length_append, htag, List.length_set]
    have hlenset : (pt.set i (pt.getD i 0 ^^^ 2 ^ j)).length = pt.length := List.length_set ..
    rw [hlen, if_neg (Nat.not_lt.mpr (Nat.le_add_left TAG_LENGTH pt.length)),
      Nat.add_sub_cancel, List.take_left' hlenset, List.drop_left' hlenset, if_neg]
    intro h
    obtain ⟨_, _, hpt⟩ := gcmTag_components h
    exact set_xor_ne j hlt hpt.symm
  · -- the flip lands in the tag: the stored tag is damaged
    have hi2 : i - pt.length < (gcmTag key iv pt).length := by rw [htag]; omega
    have hgd : (pt ++ gcmTag key iv pt).getD i 0 =
        (gcmTag key iv pt).getD (i - pt.length) 0 := by
      simp only [List.getD_eq_getElem?_getD]
      rw [List.getElem?_append_right hge]
    have hset : flipByteBit (pt ++ gcmTag key iv pt) i j =
        pt ++ (gcmTag key iv pt).set (i - pt.length)
          ((gcmTag key iv pt).getD (i - pt.length) 0 ^^^ 2 ^ j) := by
      unfold flipByteBit
      rw [hgd, List.set_append_right _ _ hge]
    rw [hset]
    unfold aesGcmDecrypt
    have hlen : (pt ++ (gcmTag key iv pt).set (i - pt.length)
        ((gcmTag key iv pt).getD (i - pt.length) 0 ^^^ 2 ^ j)).length =
        pt.length + TAG_LENGTH := by
      rw [List.length_append, List.length_set, htag]
    rw [hlen, if_neg (Nat.not_lt.mpr (Nat.le_add_left TAG_LENGTH pt.length)),
      Nat.add_sub_cancel, List.take_left, List.drop_left, if_neg]
    intro h
    exact set_xor_ne j hi2 h

theorem aesGcmDecrypt_truncate (key iv pt : List Nat) (hP : ∀ b ∈ pt, b < 256)
    (m : Nat) (hm : m < pt.length + TAG_LENGTH) :
    aesGcmDecrypt key iv ((pt ++ gcmTag key iv pt).take m) = none := by
  have htag : (gcmTag key iv pt).length = TAG_LENGTH := gcmTag_length ..
  have hctlen : (pt ++ gcmTag key iv pt).length = pt.length + TAG_LENGTH := by
    rw [List.length_append, htag]
  have hlen : ((pt ++ gcmTag key iv pt).take m).length = m := by
    rw [List.length_take, hctlen]
    omega
  rcases Nat.lt_or_ge m TAG_LENGTH with hlt | hge
  · unfold aesGcmDecrypt
    rw [hlen, if_pos hlt]
  · -- at least the tag length survives, but the last 16 entries now start
    -- with a plaintext byte, while a genuine tag starts at 256 or above
    have hmlt : m - TAG_LENGTH < pt.length := by omega
    unfold aesGcmDecrypt
    rw [hlen, if_neg (Nat.not_lt.mpr hge), if_neg]
    intro h
    rw [List.drop_take] at h
    rw [List.drop_append_of_le_length (by omega)] at h
    have hdlen : (pt.drop (m - TAG_LENGTH)).length = pt.length - (m - TAG_LENGTH) :=
      List.length_drop ..
    obtain ⟨hd, tl, hcons⟩ : ∃ hd tl, pt.drop (m - TAG_LENGTH) = hd :: tl := by
      cases hcd : pt.drop (m - TAG_LENGTH) with
      | nil => rw [hcd] at hdlen; simp at hdlen; omega
      | cons hd tl => exact ⟨hd, tl, rfl⟩
    have hhd : hd < 256 := hP hd (List.mem_of_mem_drop (hcons ▸ List.mem_cons_self hd tl))
    rw [hcons] at h
    have hmm : m - (m - TAG_LENGTH) = TAG_LENGTH := by omega
    rw [hmm] at h
    have h16 : (TAG_LENGTH : Nat) = 15 + 1 := rfl
    rw [h16, List.cons_append, List.take_succ_cons] at h
    have hh := (List.cons.injEq _ _ _ _ ▸ h).1
    unfold gcmTag at hh
    omega

theorem decrypt_encrypt_ok (P : List Nat) (W : String) (entropy : Nat → Nat) :
    decrypt (encrypt (.bytes P) W entropy) W = Except.ok P := by
  have hn : (encrypt (.bytes P) W entropy).nonce.length = NONCE_LENGTH := by
    rw [encrypt_nonce]
    exact getRandomValues_length ..
  rw [decrypt_eq _ _ hn, encrypt_ciphertext, encrypt_nonce, encrypt_salt]
  have h := aesGcmDecrypt_of_encrypt (deriveKey W none entropy).key
    ((getRandomValues entropy SALT_LENGTH NONCE_LENGTH).take 12) P
  unfold aesGcmEncrypt at h
  simp only [PlainInput.toBytes]
  rw [show (deriveKey W (some (getRandomValues entropy 0 SALT_LENGTH)) (fun _ => 0)).key
    = (deriveKey W none entropy).key from rfl]
  rw [h]

/-- C1: for every plaintext byte sequence `P` (in fact for every `List Nat`,
hence in particular the empty sequence) and every password `W`, decrypting
the envelope produced by `encrypt` with the same password returns exactly
`P`, whatever entropy stream produced the salt and nonce. -/
theorem c1_round_trip (P : List Nat) (W : String) (entropy : Nat → Nat) :
    decrypt (encrypt (.bytes P) W entropy) W = Except.ok P :=
  decrypt_encrypt_ok P W entropy

/-- C5: every envelope produced by `encrypt` has a salt of exactly
`SALT_LENGTH = 16` bytes and a nonce of exactly `NONCE_LENGTH = 24` bytes,
for every plaintext (text or bytes), password, and entropy stream. -/
theorem c5_salt_nonce_lengths (plaintext : PlainInput) (W : String) (entropy : Nat → Nat) :
    (encrypt plaintext W entropy).salt.length = SALT_LENGTH ∧
    (encrypt plaintext W entropy).nonce.length = NONCE_LENGTH ∧
    SALT_LENGTH = 16 ∧ NONCE_LENGTH = 24 := by
  refine ⟨?_, ?_, rfl, rfl⟩
  · rw [encrypt_salt]
    exact getRandomValues_length ..
  · rw [encrypt_nonce]
    exact getRandomValues_length ..

/-- C9: the ciphertext of every envelope produced by `encrypt` has length
equal to the plaintext byte length plus the fixed tag overhead
`TAG_LENGTH = 16`, a constant independent of plaintext and password. -/
theorem c9_ciphertext_length (plaintext : PlainInput) (W : String) (entropy : Nat → Nat) :
    (encrypt plaintext W entropy).ciphertext.length =
      plaintext.toBytes.length + TAG_LENGTH ∧ TAG_LENGTH = 16 := by
  refine ⟨?_, rfl⟩
  rw [encrypt_ciphertext, List.length_append, gcmTag_length]

/-- C6: `deriveKey` with an explicit salt is deterministic in password and
salt (independent of the entropy stream), produces exactly 32 key bytes, and
is the iterated password-hashing function `pbkdf2` with hash `"SHA-256"`
(a 256-bit digest) and `ITERATIONS = 100000 ≥ 100000` iterations. -/
theorem c6_deriveKey_deterministic (W : String) (salt : List Nat) (r1 r2 : Nat → Nat) :
    deriveKey W (some salt) r1 = deriveKey W (some salt) r2 ∧
    (deriveKey W (some salt) r1).key =
      pbkdf2 HASH ITERATIONS (utf8Encode W) salt KEY_LENGTH ∧
    (deriveKey W (some salt) r1).key.length = 32 ∧
    HASH = "SHA-256" ∧ ITERATIONS = 100000 ∧ 100000 ≤ ITERATIONS := by
  refine ⟨rfl, rfl, ?_, rfl, rfl, le_refl _⟩
  exact pbkdf2_length HASH ITERATIONS (utf8Encode W) salt

/-- C10: `decrypt` depends on the nonce only through its first 12 bytes: two
envelopes with equal ciphertext and salt whose 24-byte nonces agree on bytes
0..11 decrypt to the same outcome, success or failure alike. -/
theorem c10_trailing_nonce_inert (e1 e2 : EncryptedData) (W : String)
    (hc : e1.ciphertext = e2.ciphertext) (hs : e1.salt = e2.salt)
    (hn1 : e1.nonce.length = 24) (hn2 : e2.nonce.length = 24)
    (hpre : e1.nonce.take 12 = e2.nonce.take 12) :
    decrypt e1 W = decrypt e2 W := by
  rw [decrypt_eq e1 W hn1, decrypt_eq e2 W hn2, hc, hs, hpre]

theorem c10_witness :
    decrypt ⟨[1], [0,0,0,0,0,0,0,0,0,0,0,0,0,0,0,0,0,0,0,0,0,0,0,0], [2]⟩ "pw" =
    decrypt ⟨[1], [0,0,0,0,0,0,0,0,0,0,0,0,9,9,9,9,9,9,9,9,9,9,9,9], [2]⟩ "pw" :=
  c10_trailing_nonce_inert _ _ "pw" rfl rfl (by decide) (by decide) (by decide)

set_option maxRecDepth 40000

theorem encrypt_keys_agree (W : String) (entropy : Nat → Nat) :
    (deriveKey W (some (getRandomValues entropy 0 SALT_LENGTH)) (fun _ => 0)).key =
      (deriveKey W none entropy).key := rfl

theorem derived_keyFP_ne {W1 W2 : String} (s : List Nat) (r1 r2 : Nat → Nat)
    (hW : W1 ≠ W2) :
    keyFP (deriveKey W2 (some s) r2).key ≠ keyFP (deriveKey W1 (some s) r1).key := by
  rw [show (deriveKey W2 (some s) r2).key =
      pbkdf2 HASH ITERATIONS (utf8Encode W2) s KEY_LENGTH from rfl,
    show (deriveKey W1 (some s) r1).key =
      pbkdf2 HASH ITERATIONS (utf8Encode W1) s KEY_LENGTH from rfl,
    pbkdf2_keyFP, pbkdf2_keyFP]
  intro h
  have h1 : Nat.pair (Nat.pair (encStr HASH) ITERATIONS)
      (Nat.pair (encL (utf8Encode W2)) (encL s)) =
      Nat.pair (Nat.pair (encStr HASH) ITERATIONS)
      (Nat.pair (encL (utf8Encode W1)) (encL s)) := by omega
  have h2 := (Nat.pair_eq_pair.mp h1).2
  have h3 := (Nat.pair_eq_pair.mp h2).1
  exact hW (utf8Encode_inj (encL_inj h3)).symm

/-- C4: decrypting an envelope produced under password `W1` with a different
password `W2` fails with `authenticationFailed`, and that is the very same
error kind produced for corrupted data (here: the same envelope with one
ciphertext bit flipped, decrypted under the correct password). -/
theorem c4_wrong_password (P : List Nat) (W1 W2 : String) (entropy : Nat → Nat)
    (hW : W1 ≠ W2) :
    decrypt (encrypt (.bytes P) W1 entropy) W2 = .error .authenticationFailed ∧
    decrypt { encrypt (.bytes P) W1 entropy with
        ciphertext := flipByteBit (encrypt (.bytes P) W1 entropy).ciphertext 0 0 } W1 =
      .error .authenticationFailed := by
  have hn : (encrypt (.bytes P) W1 entropy).nonce.length = NONCE_LENGTH := by
    rw [encrypt_nonce]
    exact getRandomValues_length ..
  constructor
  · rw [decrypt_eq _ _ hn, encrypt_ciphertext, encrypt_nonce, encrypt_salt]
    simp only [PlainInput.toBytes]
    have hne : keyFP (deriveKey W2
          (some (getRandomValues entropy 0 SALT_LENGTH)) (fun _ => 0)).key ≠
        keyFP (deriveKey W1 none entropy).key :=
      derived_keyFP_ne (getRandomValues entropy 0 SALT_LENGTH) entropy (fun _ => 0) hW
    rw [aesGcmDecrypt_append_tag_ne _ _ _ _ _ (Or.inl hne)]
  · show decrypt ⟨flipByteBit (encrypt (.bytes P) W1 entropy).ciphertext 0 0,
        (encrypt (.bytes P) W1 entropy).nonce, (encrypt (.bytes P) W1 entropy).salt⟩ W1 = _
    have hn2 : (EncryptedData.mk (flipByteBit (encrypt (.bytes P) W1 entropy).ciphertext 0 0)
        (encrypt (.bytes P) W1 entropy).nonce
        (encrypt (.bytes P) W1 entropy).salt).nonce.length = NONCE_LENGTH := hn
    rw [decrypt_eq _ W1 hn2]
    dsimp only
    rw [encrypt_ciphertext, encrypt_nonce, encrypt_salt]
    simp only [PlainInput.toBytes]
    rw [encrypt_keys_agree]
    rw [aesGcmDecrypt_flip _ _ P 0 0 (by
      have h16 : TAG_LENGTH = 16 := rfl
      omega)]

theorem c4_witness :
    decrypt (encrypt (.bytes []) "a" (fun i => i)) "b" = .error .authenticationFailed ∧
    decrypt { encrypt (.bytes []) "a" (fun i => i) with
        ciphertext := flipByteBit (encrypt (.bytes []) "a" (fun i => i)).ciphertext 0 0 } "a" =
      .error .authenticationFailed :=
  c4_wrong_password [] "a" "b" (fun i => i) (by decide)

/-- C2 counterexample: the claim asserts that flipping any single bit of any
of the 24 nonce bytes makes `decrypt` fail with `AuthenticationFailed`; in
the code only the first 12 nonce bytes feed the cipher IV, so flipping a bit
of nonce byte 12 leaves decryption entirely unaffected — it still succeeds
and returns the original plaintext. -/
theorem c2_counterexample :
    decrypt ⟨(encrypt (.bytes [1, 2, 3]) "pw" (fun i => i)).ciphertext,
        flipByteBit (encrypt (.bytes [1, 2, 3]) "pw" (fun i => i)).nonce 12 0,
        (encrypt (.bytes [1, 2, 3]) "pw" (fun i => i)).salt⟩ "pw" =
      Except.ok [1, 2, 3] := by decide

theorem take12_flip_ne (nonce : List Nat) (hn : nonce.length = 24) (i j : Nat)
    (hi : i < 12) :
    (flipByteBit nonce i j).take 12 ≠ nonce.take 12 := by
  unfold flipByteBit
  rw [List.set_take]
  have hgd : nonce.getD i 0 = (nonce.take 12).getD i 0 := by
    simp only [List.getD_eq_getElem?_getD]
    rw [List.getElem?_take_of_lt hi]
  rw [hgd]
  exact set_xor_ne j (by rw [List.length_take]; omega)

/-- C2 (amended): after `encrypt`, flipping any single bit of any ciphertext
byte, flipping any single bit of any of the first 12 nonce bytes, and
truncating the ciphertext by any positive amount, all make `decrypt` fail
with `AuthenticationFailed`.  (Bits of nonce bytes 12..23 are excluded: they
never reach the cipher, see the counterexample.) -/
theorem c2_tamper_detection (P : List Nat) (W : String) (entropy : Nat → Nat)
    (hP : ∀ b ∈ P, b < 256) :
    (∀ i j, i < (encrypt (.bytes P) W entropy).ciphertext.length → j < 8 →
      decrypt ⟨flipByteBit (encrypt (.bytes P) W entropy).ciphertext i j,
          (encrypt (.bytes P) W entropy).nonce,
          (encrypt (.bytes P) W entropy).salt⟩ W = .error .authenticationFailed) ∧
    (∀ i j, i < 12 → j < 8 →
      decrypt ⟨(encrypt (.bytes P) W entropy).ciphertext,
          flipByteBit (encrypt (.bytes P) W entropy).nonce i j,
          (encrypt (.bytes P) W entropy).salt⟩ W = .error .authenticationFailed) ∧
    (∀ k, 0 < k →
      decrypt ⟨(encrypt (.bytes P) W entropy).ciphertext.take
            ((encrypt (.bytes P) W entropy).ciphertext.length - k),
          (encrypt (.bytes P) W entropy).nonce,
          (encrypt (.bytes P) W entropy).salt⟩ W = .error .authenticationFailed) := by
  have hn : (encrypt (.bytes P) W entropy).nonce.length = NONCE_LENGTH := by
    rw [encrypt_nonce]
    exact getRandomValues_length ..
  have h16 : TAG_LENGTH = 16 := rfl
  have hctlen : (encrypt (.bytes P) W entropy).ciphertext.length = P.length + TAG_LENGTH := by
    rw [encrypt_ciphertext, List.length_append, gcmTag_length]
    rfl
  refine ⟨?_, ?_, ?_⟩
  · intro i j hi _
    rw [hctlen] at hi
    have hn2 : (EncryptedData.mk
        (flipByteBit (encrypt (.bytes P) W entropy).ciphertext i j)
        (encrypt (.bytes P) W entropy).nonce
        (encrypt (.bytes P) W entropy).salt).nonce.length = NONCE_LENGTH := hn
    rw [decrypt_eq _ W hn2]
    dsimp only
    rw [encrypt_ciphertext, encrypt_nonce, encrypt_salt]
    simp only [PlainInput.toBytes]
    rw [encrypt_keys_agree]
    rw [aesGcmDecrypt_flip _ _ P i j hi]
  · intro i j hi _
    have hn24 : (encrypt (.bytes P) W entropy).nonce.length = 24 := hn
    have hn2 : (EncryptedData.mk (encrypt (.bytes P) W entropy).ciphertext
        (flipByteBit (encrypt (.bytes P) W entropy).nonce i j)
        (encrypt (.bytes P) W entropy).salt).nonce.length = NONCE_LENGTH := by
      show (flipByteBit (encrypt (.bytes P) W entropy).nonce i j).length = NONCE_LENGTH
      unfold flipByteBit
      rw [List.length_set]
      exact hn
    rw [decrypt_eq _ W hn2]
    dsimp only
    rw [encrypt_ciphertext, encrypt_nonce, encrypt_salt]
    simp only [PlainInput.toBytes]
    rw [encrypt_keys_agree]
    have hne := take12_flip_ne (encrypt (.bytes P) W entropy).nonce hn24 i j hi
    rw [encrypt_nonce] at hne
    rw [aesGcmDecrypt_append_tag_ne _ _ _ _ _ (Or.inr hne)]
  · intro k hk
    have hn2 : (EncryptedData.mk ((encrypt (.bytes P) W entropy).ciphertext.take
        ((encrypt (.bytes P) W entropy).ciphertext.length - k))
        (encrypt (.bytes P) W entropy).nonce
        (encrypt (.bytes P) W entropy).salt).nonce.length = NONCE_LENGTH := hn
    rw [decrypt_eq _ W hn2]
    dsimp only
    rw [hctlen, encrypt_ciphertext, encrypt_nonce, encrypt_salt]
    simp only [PlainInput.toBytes]
    rw [encrypt_keys_agree]
    rw [aesGcmDecrypt_truncate _ _ P hP (P.length + TAG_LENGTH - k) (by omega)]

theorem c2_tamper_witness :
    decrypt ⟨flipByteBit (encrypt (.bytes [7]) "pw" (fun i => i)).ciphertext 0 0,
        (encrypt (.bytes [7]) "pw" (fun i => i)).nonce,
        (encrypt (.bytes [7]) "pw" (fun i => i)).salt⟩ "pw" =
      .error .authenticationFailed ∧
    decrypt ⟨(encrypt (.bytes [7]) "pw" (fun i => i)).ciphertext,
        flipByteBit (encrypt (.bytes [7]) "pw" (fun i => i)).nonce 0 0,
        (encrypt (.bytes [7]) "pw" (fun i => i)).salt⟩ "pw" =
      .error .authenticationFailed ∧
    decrypt ⟨(encrypt (.bytes [7]) "pw" (fun i => i)).ciphertext.take
          ((encrypt (.bytes [7]) "pw" (fun i => i)).ciphertext.length - 1),
        (encrypt (.bytes [7]) "pw" (fun i => i)).nonce,
        (encrypt (.bytes [7]) "pw" (fun i => i)).salt⟩ "pw" =
      .error .authenticationFailed :=
  ⟨(c2_tamper_detection [7] "pw" (fun i => i) (by decide)).1 0 0 (by decide) (by decide),
   (c2_tamper_detection [7] "pw" (fun i => i) (by decide)).2.1 0 0 (by decide) (by decide),
   (c2_tamper_detection [7] "pw" (fun i => i) (by decide)).2.2 1 (by decide)⟩

/-! ## The base64 codec round-trip -/

theorem sixToChar_charToSix : ∀ n, n < 64 → charToSix (sixToChar n) = some n := by decide

theorem sixToChar_props : ∀ n, n < 64 → sixToChar n ≠ '*' ∧ sixToChar n ≠ '=' ∧
    isB64Ws (sixToChar n) = false ∧ isPlainChar (sixToChar n) = true := by decide

theorem indexEncode_lt (l : List Nat) (h : ∀ b ∈ l, b < 256) :
    ∀ x ∈ indexEncode l, x < 64 := by
  induction l using indexEncode.induct with
  | case1 => simp [indexEncode]
  | case2 a =>
    intro x hx
    simp [indexEncode] at hx
    have ha := h a (by simp)
    rcases hx with rfl | rfl <;> omega
  | case3 a b =>
    intro x hx
    simp [indexEncode] at hx
    have ha := h a (by simp)
    have hb := h b (by simp)
    rcases hx with rfl | rfl | rfl <;> omega
  | case4 a b c rest ih =>
    intro x hx
    have ha := h a (by simp)
    have hb := h b (by simp)
    have hc := h c (by simp)
    simp only [indexEncode, List.mem_cons] at hx
    rcases hx with rfl | rfl | rfl | rfl | hx
    · omega
    · omega
    · omega
    · omega
    · exact ih (fun y hy => h y (by simp [hy])) x hx

theorem decodeIdxs_indexEncode (l : List Nat) (h : ∀ b ∈ l, b < 256) :
    decodeIdxs (indexEncode l) = l := by
  induction l using indexEncode.induct with
  | case1 => rfl
  | case2 a =>
    have ha := h a (by simp)
    simp only [indexEncode, decodeIdxs, List.cons.injEq, and_true]
    omega
  | case3 a b =>
    have ha := h a (by simp)
    have hb := h b (by simp)
    simp only [indexEncode, decodeIdxs, List.cons.injEq, and_true]
    constructor <;> omega
  | case4 a b c rest ih =>
    have ha := h a (by simp)
    have hb := h b (by simp)
    have hc := h c (by simp)
    simp only [indexEncode, decodeIdxs, List.cons.injEq]
    refine ⟨by omega, by omega, by omega, ih (fun y hy => h y (by simp [hy]))⟩

theorem indexEncode_length (l : List Nat) :
    (indexEncode l).length = (4 * l.length + 2) / 3 := by
  induction l using indexEncode.induct with
  | case1 => rfl
  | case2 a => simp [indexEncode]
  | case3 a b => simp [indexEncode]
  | case4 a b c rest ih =>
    simp only [indexEncode, List.length_cons, ih, List.length_cons]
    omega

theorem b64encode_mem (l : List Nat) (h : ∀ b ∈ l, b < 256) :
    ∀ c ∈ b64encode l, (∃ n, n < 64 ∧ c = sixToChar n) ∨ c = '=' := by
  intro c hc
  unfold b64encode at hc
  rcases List.mem_append.mp hc with hc | hc
  · obtain ⟨n, hn, rfl⟩ := List.mem_map.mp hc
    exact Or.inl ⟨n, indexEncode_lt l h n hn, rfl⟩
  · exact Or.inr (List.eq_of_mem_replicate hc)

theorem charsToSixes_map (idxs : List Nat) (h : ∀ x ∈ idxs, x < 64) :
    charsToSixes (idxs.map sixToChar) = some idxs := by
  induction idxs with
  | nil => rfl
  | cons i t ih =>
    simp only [List.map_cons, charsToSixes]
    rw [sixToChar_charToSix i (h i (by simp)), ih (fun x hx => h x (by simp [hx]))]

theorem dropTrailingEq_append_pad (xs : List Char) (hne : ∀ c ∈ xs, c ≠ '=')
    (p : Nat) (hp : p ≤ 2) (hxs : p ≠ 0 → xs ≠ []) :
    dropTrailingEq (xs ++ List.replicate p '=') = xs := by
  have h3 : p = 0 ∨ p = 1 ∨ p = 2 := by omega
  rcases h3 with rfl | rfl | rfl
  · rw [List.replicate_zero, List.append_nil]
    unfold dropTrailingEq
    cases hxr : xs.reverse with
    | nil => rfl
    | cons c1 rest =>
      have hc1 : c1 ≠ '=' :=
        hne c1 (List.mem_reverse.mp (by rw [hxr]; exact List.mem_cons_self c1 rest))
      cases rest with
      | nil =>
        dsimp only
        rw [if_neg hc1]
      | cons c2 r =>
        dsimp only
        rw [if_neg hc1]
  · have hxs1 : xs ≠ [] := hxs (by omega)
    rw [show List.replicate 1 '=' = ['='] from rfl]
    unfold dropTrailingEq
    rw [List.reverse_append, show (['='] : List Char).reverse = ['='] from rfl,
      List.singleton_append]
    cases hxr : xs.reverse with
    | nil => exact absurd (by simpa using congrArg List.reverse hxr) hxs1
    | cons c r =>
      have hc : c ≠ '=' :=
        hne c (List.mem_reverse.mp (by rw [hxr]; exact List.mem_cons_self c r))
      dsimp only
      rw [if_pos rfl, if_neg hc, ← hxr, List.reverse_reverse]
  · rw [show List.replicate 2 '=' = ['=', '='] from rfl]
    unfold dropTrailingEq
    rw [List.reverse_append, show (['=', '='] : List Char).reverse = ['=', '='] from rfl]
    rw [show (['=', '='] : List Char) ++ xs.reverse = '=' :: '=' :: xs.reverse from rfl]
    dsimp only
    rw [if_pos rfl, if_pos rfl, List.reverse_reverse]

theorem padLen_le (n : Nat) : padLen n ≤ 2 := by
  unfold padLen
  omega

theorem b64_len_mod4 (n : Nat) : ((4 * n + 2) / 3 + padLen n) % 4 = 0 := by
  unfold padLen
  have h3 : n % 3 = 0 ∨ n % 3 = 1 ∨ n % 3 = 2 := by omega
  rcases h3 with h3 | h3 | h3 <;> omega

theorem b64_len_mod4_ne1 (n : Nat) : (4 * n + 2) / 3 % 4 ≠ 1 := by
  have h3 : n % 3 = 0 ∨ n % 3 = 1 ∨ n % 3 = 2 := by omega
  rcases h3 with h3 | h3 | h3 <;> omega

theorem forgivingB64_b64encode (l : List Nat) (h : ∀ b ∈ l, b < 256) :
    forgivingB64 (b64encode l) = some l := by
  unfold forgivingB64
  have hfilter : (b64encode l).filter (fun c => !(isB64Ws c)) = b64encode l := by
    rw [List.filter_eq_self]
    intro c hc
    rcases b64encode_mem l h c hc with ⟨n, hn, rfl⟩ | rfl
    · simp [(sixToChar_props n hn).2.2.1]
    · decide
  rw [hfilter]
  dsimp only
  have hb : b64encode l =
      (indexEncode l).map sixToChar ++ List.replicate (padLen l.length) '=' := rfl
  have hxlen : ((indexEncode l).map sixToChar).length = (4 * l.length + 2) / 3 := by
    rw [List.length_map, indexEncode_length]
  have hc4 : (b64encode l).length % 4 = 0 := by
    rw [hb, List.length_append, hxlen, List.length_replicate]
    exact b64_len_mod4 l.length
  have ht2 : (if (b64encode l).length % 4 = 0 then dropTrailingEq (b64encode l)
      else b64encode l) = dropTrailingEq (b64encode l) := if_pos hc4
  rw [ht2]
  have hne : ∀ c ∈ (indexEncode l).map sixToChar, c ≠ '=' := by
    intro c hc
    obtain ⟨n, hn, rfl⟩ := List.mem_map.mp hc
    exact (sixToChar_props n (indexEncode_lt l h n hn)).2.1
  have hxs : padLen l.length ≠ 0 → (indexEncode l).map sixToChar ≠ [] := by
    intro hp0
    have hlp : 0 < l.length := by
      by_contra hl0
      have hl0' : l.length = 0 := by omega
      exact hp0 (by unfold padLen; omega)
    have hpos : 0 < ((indexEncode l).map sixToChar).length := by rw [hxlen]; omega
    exact List.ne_nil_of_length_pos hpos
  have hd : dropTrailingEq (b64encode l) = (indexEncode l).map sixToChar := by
    rw [hb]
    exact dropTrailingEq_append_pad _ hne _ (padLen_le l.length) hxs
  rw [hd]
  rw [if_neg (by rw [hxlen]; exact b64_len_mod4_ne1 l.length)]
  rw [charsToSixes_map _ (indexEncode_lt l h)]
  rw [show Option.map decodeIdxs (some (indexEncode l)) =
    some (decodeIdxs (indexEncode l)) from rfl]
  rw [decodeIdxs_indexEncode l h]

theorem char_toNat_ofNat {n : Nat} (h : n < 55296) : (Char.ofNat n).toNat = n := by
  unfold Char.ofNat
  rw [dif_pos (Or.inl h : Nat.isValidChar n)]
  rfl

theorem digitChar_isDigit (d : Nat) (h : d < 10) : isDigitCh (digitChar d) = true := by
  unfold isDigitCh digitChar
  rw [char_toNat_ofNat (by omega)]
  simp only [decide_eq_true_eq]
  omega

theorem natDigitsAux_digits : ∀ fuel n, ∀ c ∈ natDigitsAux fuel n, isDigitCh c = true
  | 0, n => by simp [natDigitsAux]
  | fuel + 1, n => by
    intro c hc
    unfold natDigitsAux at hc
    by_cases h10 : n < 10
    · rw [if_pos h10] at hc
      simp only [List.mem_singleton] at hc
      subst hc
      exact digitChar_isDigit n h10
    · rw [if_neg h10] at hc
      rcases List.mem_cons.mp hc with rfl | hc
      · exact digitChar_isDigit _ (Nat.mod_lt _ (by omega))
      · exact natDigitsAux_digits fuel (n / 10) c hc

theorem natDigits_digits (n : Nat) : ∀ c ∈ natDigits n, isDigitCh c = true :=
  natDigitsAux_digits (n + 1) n

theorem natDigits_ne_nil (n : Nat) : natDigits n ≠ [] := by
  unfold natDigits natDigitsAux
  by_cases h10 : n < 10
  · rw [if_pos h10]
    simp
  · rw [if_neg h10]
    simp

theorem digitsToNat_cons (c : Char) (ds : List Char) :
    digitsToNat (c :: ds) = digitsToNat ds * 10 + (c.toNat - 48) := rfl

theorem digitsToNat_natDigitsAux : ∀ fuel n, n < fuel →
    digitsToNat (natDigitsAux fuel n) = n
  | 0, n, h => absurd h (by omega)
  | fuel + 1, n, h => by
    unfold natDigitsAux
    by_cases h10 : n < 10
    · rw [if_pos h10, digitsToNat_cons]
      show digitsToNat [] * 10 + ((digitChar n).toNat - 48) = n
      unfold digitChar
      rw [char_toNat_ofNat (by omega)]
      show 0 * 10 + (48 + n - 48) = n
      omega
    · rw [if_neg h10, digitsToNat_cons]
      have hlt : n / 10 < fuel := by
        have := Nat.div_lt_self (by omega : 0 < n) (by omega : 1 < 10)
        omega
      rw [digitsToNat_natDigitsAux fuel (n / 10) hlt]
      unfold digitChar
      rw [char_toNat_ofNat (by omega)]
      omega

theorem digitsToNat_natDigits (n : Nat) : digitsToNat (natDigits n) = n :=
  digitsToNat_natDigitsAux (n + 1) n (by omega)

theorem takeWhile_append_all (p : Char → Bool) (a b : List Char)
    (ha : ∀ x ∈ a, p x = true)
    (hb : b = [] ∨ ∃ c r, b = c :: r ∧ p c = false) :
    (a ++ b).takeWhile p = a ∧ (a ++ b).dropWhile p = b := by
  induction a with
  | nil =>
    simp only [List.nil_append]
    rcases hb with rfl | ⟨c, r, rfl, hc⟩
    · simp
    · rw [List.takeWhile_cons, List.dropWhile_cons]
      simp [hc]
  | cons x a' ih =>
    have hx : p x = true := ha x (by simp)
    obtain ⟨ht, hd⟩ := ih (fun y hy => ha y (by simp [hy]))
    rw [List.cons_append, List.takeWhile_cons, List.dropWhile_cons]
    simp [hx, ht, hd]

theorem tokenEncode_cons (n : Nat) (t : List Nat) :
    tokenEncode (n :: t) = '*' :: (natDigits n ++ tokenEncode t) := rfl

theorem tokenEncode_shape (l : List Nat) :
    tokenEncode l = [] ∨ ∃ r, tokenEncode l = '*' :: r := by
  cases l with
  | nil => exact Or.inl rfl
  | cons n t => exact Or.inr ⟨natDigits n ++ tokenEncode t, rfl⟩

theorem tokenDecodeAux_encode : ∀ (l : List Nat) (fuel : Nat),
    (tokenEncode l).length < fuel → tokenDecodeAux fuel (tokenEncode l) = some l := by
  intro l
  induction l with
  | nil =>
    intro fuel h
    cases fuel with
    | zero => exact absurd h (Nat.not_lt_zero _)
    | succ f => rfl
  | cons n t ih =>
    intro fuel h
    cases fuel with
    | zero => exact absurd h (Nat.not_lt_zero _)
    | succ f =>
      rw [tokenEncode_cons]
      show (if ((natDigits n ++ tokenEncode t).takeWhile isDigitCh).isEmpty then none
          else match tokenDecodeAux f ((natDigits n ++ tokenEncode t).dropWhile isDigitCh) with
            | some ns => some (digitsToNat ((natDigits n ++ tokenEncode t).takeWhile isDigitCh) :: ns)
            | none => none) = some (n :: t)
      obtain ⟨htake, hdrop⟩ := takeWhile_append_all isDigitCh (natDigits n) (tokenEncode t)
        (natDigits_digits n)
        (by
          rcases tokenEncode_shape t with he | ⟨r, he⟩
          · exact Or.inl he
          · exact Or.inr ⟨'*', r, he, by decide⟩)
      rw [htake, hdrop]
      have hlen : (tokenEncode t).length < f := by
        rw [tokenEncode_cons, List.length_cons, List.length_append] at h
        omega
      rw [ih f hlen]
      rw [if_neg (by
        intro he
        exact natDigits_ne_nil n (List.isEmpty_iff.mp he))]
      rw [digitsToNat_natDigits]

theorem tokenDecode_tokenEncode (l : List Nat) : tokenDecode (tokenEncode l) = some l :=
  tokenDecodeAux_encode l _ (by omega)

theorem atobBytes_arrayToBase64 (l : List Nat) : atobBytes (arrayToBase64 l) = some l := by
  unfold arrayToBase64 atobBytes
  by_cases hb : l.all (fun b => decide (b < 256)) = true
  · rw [if_pos hb]
    have hbytes : ∀ b ∈ l, b < 256 := by
      intro b hbm
      simpa using List.all_eq_true.mp hb b hbm
    have hnostar : (b64encode l).any (fun c => decide (c = '*')) = false := by
      rw [List.any_eq_false]
      intro c hc
      rcases b64encode_mem l hbytes c hc with ⟨n, hn, rfl⟩ | rfl
      · simp [(sixToChar_props n hn).1]
      · simp
    rw [if_neg (by simp [hnostar])]
    exact forgivingB64_b64encode l hbytes
  · rw [if_neg hb]
    have hlne : l ≠ [] := by
      rintro rfl
      exact hb rfl
    obtain ⟨n, t, rfl⟩ : ∃ n t, l = n :: t := by
      cases l with
      | nil => exact absurd rfl hlne
      | cons n t => exact ⟨n, t, rfl⟩
    have hstar : (tokenEncode (n :: t)).any (fun c => decide (c = '*')) = true := by
      rw [tokenEncode_cons]
      simp
    rw [if_pos hstar]
    exact tokenDecode_tokenEncode (n :: t)

/-! ## JSON stringify/parse round-trip on envelope objects -/

theorem parseStringBody_plain (v : List Char) : ∀ (rest : List Char),
    (∀ c ∈ v, isPlainChar c = true) →
    parseStringBody (v ++ '"' :: rest) = some (v, rest) := by
  induction v with
  | nil =>
    intro rest _
    rw [List.nil_append, parseStringBody.eq_def]
    dsimp only
    rw [if_pos rfl]
  | cons c v' ih =>
    intro rest hv
    have hc := hv c (by simp)
    unfold isPlainChar at hc
    simp only [Bool.and_eq_true, decide_eq_true_eq] at hc
    rw [List.cons_append, parseStringBody.eq_def]
    dsimp only
    rw [if_neg hc.1, if_neg hc.2.1, if_neg (by omega)]
    rw [ih rest (fun x hx => hv x (by simp [hx]))]
    rfl

theorem skipWs_cons_of_not_ws (c : Char) (rest : List Char) (h : isJsonWs c = false) :
    skipWs (c :: rest) = c :: rest := by
  rw [skipWs, List.dropWhile_cons]
  simp [h]

theorem parseVal_string (f : Nat) (v rest : List Char)
    (hv : ∀ c ∈ v, isPlainChar c = true) :
    parseVal (f + 1) ('"' :: (v ++ '"' :: rest)) = some (.jstr v, rest) := by
  rw [parseVal]
  rw [skipWs_cons_of_not_ws _ _ (by decide)]
  dsimp only
  rw [if_neg (by decide), if_neg (by decide), if_neg (by decide), if_pos rfl]
  rw [parseStringBody_plain v rest hv]
  rfl

theorem parseFields_cons_field (f : Nat) (k v rest : List Char)
    (hk : ∀ c ∈ k, isPlainChar c = true) (hv : ∀ c ∈ v, isPlainChar c = true) :
    parseFields (f + 2) ('"' :: (k ++ '"' :: ':' :: '"' :: (v ++ '"' :: ',' :: rest))) =
      (parseFields (f + 1) rest).map (fun p => ((k, JSValue.jstr v) :: p.1, p.2)) := by
  rw [parseFields]
  rw [skipWs_cons_of_not_ws _ _ (by decide)]
  dsimp only
  rw [if_pos rfl]
  rw [parseStringBody_plain k _ hk]
  dsimp only
  rw [skipWs_cons_of_not_ws ':' _ (by decide)]
  dsimp only
  rw [if_pos rfl]
  rw [parseVal_string f v (',' :: rest) hv]
  dsimp only
  rw [skipWs_cons_of_not_ws ',' _ (by decide)]
  dsimp only
  rw [if_pos rfl]

theorem parseFields_last_field (f : Nat) (k v rest : List Char)
    (hk : ∀ c ∈ k, isPlainChar c = true) (hv : ∀ c ∈ v, isPlainChar c = true) :
    parseFields (f + 2)
      ('"' :: (k ++ '"' :: ':' :: '"' :: (v ++ '"' :: rbraceChar :: rest))) =
      some ([(k, JSValue.jstr v)], rest) := by
  rw [parseFields]
  rw [skipWs_cons_of_not_ws _ _ (by decide)]
  dsimp only
  rw [if_pos rfl]
  rw [parseStringBody_plain k _ hk]
  dsimp only
  rw [skipWs_cons_of_not_ws ':' _ (by decide)]
  dsimp only
  rw [if_pos rfl]
  rw [parseVal_string f v (rbraceChar :: rest) hv]
  dsimp only
  rw [skipWs_cons_of_not_ws rbraceChar _ (by decide)]
  dsimp only
  rw [if_neg (by decide), if_pos rfl]

theorem escChar_plain (c : Char) (h : isPlainChar c = true) : escChar c = [c] := by
  unfold isPlainChar at h
  simp only [Bool.and_eq_true, decide_eq_true_eq] at h
  unfold escChar
  rw [if_neg h.1, if_neg h.2.1, if_neg ?h8, if_neg ?h9, if_neg ?h10, if_neg ?h12,
    if_neg ?h13, if_neg (by omega)]
  case h8 =>
    intro he
    have h' := congrArg Char.toNat he
    rw [show (Char.ofNat 8).toNat = 8 from rfl] at h'
    omega
  case h9 =>
    intro he
    have h' := congrArg Char.toNat he
    rw [show ('\t' : Char).toNat = 9 from rfl] at h'
    omega
  case h10 =>
    intro he
    have h' := congrArg Char.toNat he
    rw [show ('\n' : Char).toNat = 10 from rfl] at h'
    omega
  case h12 =>
    intro he
    have h' := congrArg Char.toNat he
    rw [show (Char.ofNat 12).toNat = 12 from rfl] at h'
    omega
  case h13 =>
    intro he
    have h' := congrArg Char.toNat he
    rw [show ('\r' : Char).toNat = 13 from rfl] at h'
    omega

theorem jsonEscape_plain (s : List Char) (h : ∀ c ∈ s, isPlainChar c = true) :
    jsonEscape s = s := by
  induction s with
  | nil => rfl
  | cons c s' ih =>
    show escChar c ++ jsonEscape s' = c :: s'
    rw [escChar_plain c (h c (by simp)), ih (fun x hx => h x (by simp [hx]))]
    rfl

theorem isPlainChar_of_digit (c : Char) (h : isDigitCh c = true) :
    isPlainChar c = true := by
  unfold isDigitCh at h
  simp only [Bool.and_eq_true, decide_eq_true_eq] at h
  unfold isPlainChar
  simp only [Bool.and_eq_true, decide_eq_true_eq]
  refine ⟨?_, ?_, by omega⟩
  · intro he
    have h' := congrArg Char.toNat he
    rw [show ('"' : Char).toNat = 34 from rfl] at h'
    omega
  · intro he
    have h' := congrArg Char.toNat he
    rw [show ('\\' : Char).toNat = 92 from rfl] at h'
    omega

theorem tokenEncode_mem (l : List Nat) :
    ∀ c ∈ tokenEncode l, c = '*' ∨ isDigitCh c = true := by
  induction l with
  | nil => simp [tokenEncode]
  | cons n t ih =>
    intro c hc
    rw [tokenEncode_cons] at hc
    rcases List.mem_cons.mp hc with rfl | hc
    · exact Or.inl rfl
    · rcases List.mem_append.mp hc with hc | hc
      · exact Or.inr (natDigits_digits n c hc)
      · exact ih c hc

theorem arrayToBase64_plain (l : List Nat) :
    ∀ c ∈ arrayToBase64 l, isPlainChar c = true := by
  unfold arrayToBase64
  by_cases hb : l.all (fun b => decide (b < 256)) = true
  · rw [if_pos hb]
    intro c hc
    have hbytes : ∀ b ∈ l, b < 256 := by
      intro b hbm
      simpa using List.all_eq_true.mp hb b hbm
    rcases b64encode_mem l hbytes c hc with ⟨n, hn, rfl⟩ | rfl
    · exact (sixToChar_props n hn).2.2.2
    · decide
  · rw [if_neg hb]
    intro c hc
    rcases tokenEncode_mem l c hc with rfl | hd
    · decide
    · exact isPlainChar_of_digit c hd

theorem parseVal_envelope (f : Nat) (v1 v2 v3 : List Char)
    (h1 : ∀ c ∈ v1, isPlainChar c = true) (h2 : ∀ c ∈ v2, isPlainChar c = true)
    (h3 : ∀ c ∈ v3, isPlainChar c = true) :
    parseVal (f + 7)
      ("\x7b\"ciphertext\":\"".data ++ (v1 ++ ("\",\"nonce\":\"".data ++
        (v2 ++ ("\",\"salt\":\"".data ++ (v3 ++ "\"\x7d".data)))))) =
      some (.jobj [("ciphertext".data, .jstr v1), ("nonce".data, .jstr v2),
        ("salt".data, .jstr v3)], []) := by
  rw [show ("\x7b\"ciphertext\":\"".data ++ (v1 ++ ("\",\"nonce\":\"".data ++
      (v2 ++ ("\",\"salt\":\"".data ++ (v3 ++ "\"\x7d".data)))))) =
    lbraceChar :: ('"' :: ("ciphertext".data ++ ('"' :: ':' :: '"' ::
      (v1 ++ '"' :: ',' :: ('"' :: ("nonce".data ++ ('"' :: ':' :: '"' ::
      (v2 ++ '"' :: ',' :: ('"' :: ("salt".data ++ ('"' :: ':' :: '"' ::
      (v3 ++ '"' :: rbraceChar :: [])))))))))))) from rfl]
  rw [parseVal]
  rw [skipWs_cons_of_not_ws _ _ (by decide)]
  dsimp only
  rw [if_neg (by decide), if_neg (by decide), if_neg (by decide), if_neg (by decide),
    if_neg (by decide), if_pos rfl]
  rw [skipWs_cons_of_not_ws '"' _ (by decide)]
  dsimp only
  rw [if_neg (by decide)]
  rw [show f + 6 = (f + 4) + 2 from rfl]
  rw [parseFields_cons_field (f + 4) "ciphertext".data v1 _ (by decide) h1]
  rw [show f + 4 + 1 = (f + 3) + 2 from rfl]
  rw [parseFields_cons_field (f + 3) "nonce".data v2 _ (by decide) h2]
  rw [show f + 3 + 1 = (f + 2) + 2 from rfl]
  rw [parseFields_last_field (f + 2) "salt".data v3 _ (by decide) h3]
  rfl

theorem jsonParse_envelope (v1 v2 v3 : List Char)
    (h1 : ∀ c ∈ v1, isPlainChar c = true) (h2 : ∀ c ∈ v2, isPlainChar c = true)
    (h3 : ∀ c ∈ v3, isPlainChar c = true) :
    jsonParse ("\x7b\"ciphertext\":\"".data ++ (v1 ++ ("\",\"nonce\":\"".data ++
      (v2 ++ ("\",\"salt\":\"".data ++ (v3 ++ "\"\x7d".data)))))) =
      some (.jobj [("ciphertext".data, .jstr v1), ("nonce".data, .jstr v2),
        ("salt".data, .jstr v3)]) := by
  unfold jsonParse
  rw [show 2 * ("\x7b\"ciphertext\":\"".data ++ (v1 ++ ("\",\"nonce\":\"".data ++
      (v2 ++ ("\",\"salt\":\"".data ++ (v3 ++ "\"\x7d".data)))))).length + 16 =
    (2 * ("\x7b\"ciphertext\":\"".data ++ (v1 ++ ("\",\"nonce\":\"".data ++
      (v2 ++ ("\",\"salt\":\"".data ++ (v3 ++ "\"\x7d".data)))))).length + 9) + 7
    from by omega]
  rw [parseVal_envelope _ v1 v2 v3 h1 h2 h3]
  rfl

theorem parse_serialize_roundtrip (e : EncryptedData) :
    parseEnvelopeText (serializeEnvelope e) = some e := by
  have hp1 := arrayToBase64_plain e.ciphertext
  have hp2 := arrayToBase64_plain e.nonce
  have hp3 := arrayToBase64_plain e.salt
  have hesc : serializeEnvelope e = "\x7b\"ciphertext\":\"".data ++
      (arrayToBase64 e.ciphertext ++ ("\",\"nonce\":\"".data ++
      (arrayToBase64 e.nonce ++ ("\",\"salt\":\"".data ++
      (arrayToBase64 e.salt ++ "\"\x7d".data))))) := by
    unfold serializeEnvelope stringifyEnvelope encryptedDataToBase64
    dsimp only
    rw [jsonEscape_plain _ hp1, jsonEscape_plain _ hp2, jsonEscape_plain _ hp3]
    simp [List.append_assoc]
  unfold parseEnvelopeText
  rw [hesc, jsonParse_envelope _ _ _ hp1 hp2 hp3]
  dsimp only
  rw [show getField (.jobj [("ciphertext".data, .jstr (arrayToBase64 e.ciphertext)),
      ("nonce".data, .jstr (arrayToBase64 e.nonce)),
      ("salt".data, .jstr (arrayToBase64 e.salt))]) "ciphertext".data =
    some (.jstr (arrayToBase64 e.ciphertext)) from rfl]
  rw [show getField (.jobj [("ciphertext".data, .jstr (arrayToBase64 e.ciphertext)),
      ("nonce".data, .jstr (arrayToBase64 e.nonce)),
      ("salt".data, .jstr (arrayToBase64 e.salt))]) "nonce".data =
    some (.jstr (arrayToBase64 e.nonce)) from rfl]
  rw [show getField (.jobj [("ciphertext".data, .jstr (arrayToBase64 e.ciphertext)),
      ("nonce".data, .jstr (arrayToBase64 e.nonce)),
      ("salt".data, .jstr (arrayToBase64 e.salt))]) "salt".data =
    some (.jstr (arrayToBase64 e.salt)) from rfl]
  unfold base64ToEncryptedData jsToString jsToStringV
  rw [atobBytes_arrayToBase64, atobBytes_arrayToBase64, atobBytes_arrayToBase64]

/-- C8: the envelope codec round-trip at the text level is lossless: parsing
the serialized form of any envelope returns exactly that envelope (for every
envelope, hence in particular all byte-valued ones; serialization is a pure
function of the three fields, hence deterministic in content). -/
theorem c8_codec_roundtrip (e : EncryptedData) :
    parseEnvelopeText (serializeEnvelope e) = some e :=
  parse_serialize_roundtrip e

theorem decryptFromJSON_of_parse (s : List Char) (W : String) (env : EncryptedData)
    (h : parseEnvelopeText s = some env) :
    decryptFromJSON s W =
      match decrypt env W with
      | .ok d => .ok (d.map Char.ofNat)
      | .error e => .error e := by
  unfold parseEnvelopeText at h
  unfold decryptFromJSON
  cases hj : jsonParse s with
  | none =>
    rw [hj] at h
    exact absurd h (by simp)
  | some parsed =>
    rw [hj] at h
    dsimp only at h
    dsimp only
    rw [h]

theorem utf8EncodeChar_lt (c : Char) : ∀ b ∈ utf8EncodeChar c, b < 256 := by
  rcases utf8_char_cases c with ⟨ha, he⟩ | ⟨ha, hb, he⟩ | ⟨ha, hb, he⟩ | ⟨ha, hb, he⟩ <;>
    rw [he] <;> intro b hbm <;> simp only [List.mem_cons, List.mem_singleton] at hbm
  · rcases hbm with rfl | h0
    · omega
    · simp at h0
  · rcases hbm with rfl | rfl | h0
    · omega
    · omega
    · simp at h0
  · rcases hbm with rfl | rfl | rfl | h0
    · omega
    · omega
    · omega
    · simp at h0
  · rcases hbm with rfl | rfl | rfl | rfl | h0
    · omega
    · omega
    · omega
    · omega
    · simp at h0

theorem utf8Bytes_lt (l : List Char) : ∀ b ∈ utf8Bytes l, b < 256 := by
  induction l with
  | nil => simp [utf8Bytes]
  | cons c t ih =>
    intro b hbm
    rw [show utf8Bytes (c :: t) = utf8EncodeChar c ++ utf8Bytes t from rfl] at hbm
    rcases List.mem_append.mp hbm with hbm | hbm
    · exact utf8EncodeChar_lt c b hbm
    · exact ih b hbm

theorem map_toNat_map_ofNat (P : List Nat) (h : ∀ b ∈ P, b < 256) :
    (P.map Char.ofNat).map Char.toNat = P := by
  induction P with
  | nil => rfl
  | cons b t ih =>
    simp only [List.map_cons, List.cons.injEq]
    exact ⟨char_toNat_ofNat (by have := h b (by simp); omega),
      ih (fun x hx => h x (by simp [hx]))⟩

theorem decryptFromJSON_encryptToJSON (pt : PlainInput) (W : String)
    (entropy : Nat → Nat) :
    decryptFromJSON (encryptToJSON pt W entropy) W =
      match decrypt (encrypt pt W entropy) W with
      | .ok d => .ok (d.map Char.ofNat)
      | .error e => .error e := by
  have henc : encryptToJSON pt W entropy = serializeEnvelope (encrypt pt W entropy) := rfl
  rw [henc]
  exact decryptFromJSON_of_parse _ W _ (parse_serialize_roundtrip (encrypt pt W entropy))

theorem decrypt_encrypt_text (s : String) (W : String) (entropy : Nat → Nat) :
    decrypt (encrypt (.text s) W entropy) W = Except.ok (utf8Encode s) := by
  have h := decrypt_encrypt_ok (utf8Encode s) W entropy
  have he : encrypt (.text s) W entropy = encrypt (.bytes (utf8Encode s)) W entropy := rfl
  rw [he]
  exact h

/-- C7: the text-level wrappers compose losslessly with the byte-level
operations.  For byte plaintexts, `decryptFromJSON (encryptToJSON P W) W`
returns the original bytes (read back through `Char.toNat`); for text
plaintexts it returns exactly the UTF-8 bytes of the text, and `utf8Encode`
is injective, so the original text (including non-ASCII text) is recovered
exactly. -/
theorem c7_wrappers_roundtrip :
    (∀ (P : List Nat) (W : String) (entropy : Nat → Nat), (∀ b ∈ P, b < 256) →
      (decryptFromJSON (encryptToJSON (.bytes P) W entropy) W).map
        (List.map Char.toNat) = Except.ok P) ∧
    (∀ (s W : String) (entropy : Nat → Nat),
      (decryptFromJSON (encryptToJSON (.text s) W entropy) W).map
        (List.map Char.toNat) = Except.ok (utf8Encode s)) ∧
    (∀ s t : String, utf8Encode s = utf8Encode t → s = t) := by
  refine ⟨?_, ?_, fun s t h => utf8Encode_inj h⟩
  · intro P W entropy hP
    rw [decryptFromJSON_encryptToJSON, decrypt_encrypt_ok P W entropy]
    dsimp only [Except.map]
    rw [map_toNat_map_ofNat P hP]
  · intro s W entropy
    rw [decryptFromJSON_encryptToJSON, decrypt_encrypt_text s W entropy]
    dsimp only [Except.map]
    rw [map_toNat_map_ofNat (utf8Encode s) (utf8Bytes_lt s.data)]

theorem c7_witness :
    (decryptFromJSON (encryptToJSON (.bytes [1, 2]) "pw" (fun i => i)) "pw").map
      (List.map Char.toNat) = Except.ok [1, 2] :=
  c7_wrappers_roundtrip.1 [1, 2] "pw" (fun i => i) (by decide)

/-- C3 counterexample: the claim says a serialized envelope with a null field
fails with `MalformedEnvelope` and never `AuthenticationFailed`.  But JS
coerces the null member to the string "null" before base64-decoding it, and
"null" is valid base64 (decoding to the bytes [158, 233, 101]); with the
other two fields present and valid, parsing succeeds and the failure happens
only at decrypt time, as `AuthenticationFailed`. -/
theorem c3_counterexample :
    parseEnvelopeText
        "\x7b\"ciphertext\":null,\"nonce\":\"AA==\",\"salt\":\"AA==\"\x7d".data =
      some ⟨[158, 233, 101], [0], [0]⟩ ∧
    decryptFromJSON
        "\x7b\"ciphertext\":null,\"nonce\":\"AA==\",\"salt\":\"AA==\"\x7d".data "pw" =
      .error .authenticationFailed := by
  constructor
  · decide
  · decide

theorem parse_failure_is_malformed (s : List Char) (W : String)
    (h : decryptFromJSON s W = .error .authenticationFailed) :
    ∃ env, parseEnvelopeText s = some env := by
  unfold decryptFromJSON at h
  unfold parseEnvelopeText
  cases hj : jsonParse s with
  | none =>
    rw [hj] at h
    exact absurd h (by simp)
  | some parsed =>
    rw [hj] at h
    dsimp only at h
    dsimp only
    cases hb : base64ToEncryptedData (getField parsed "ciphertext".data)
        (getField parsed "nonce".data) (getField parsed "salt".data) with
    | none =>
      rw [hb] at h
      exact absurd h (by simp)
    | some env => exact ⟨env, rfl⟩

/-- C3 (amended): the structurally invalid serialized envelopes among the
claim's examples — the empty object, the object with only a null ciphertext
member (whose missing nonce and salt coerce to the invalid base64 text
"undefined"), non-JSON text, and a field value that is not valid base64 —
all fail with `MalformedEnvelope`, for every password; and an
`AuthenticationFailed` outcome can only arise after parsing has succeeded
(the parse stage performs no authenticity check).  What the counterexample
removes: an object carrying a null field alongside two present, valid fields
parses successfully (null coerces to the valid base64 text "null") and then
fails at decrypt time with `AuthenticationFailed`. -/
theorem c3_malformed_rejection :
    (∀ W : String, decryptFromJSON "\x7b\x7d".data W = .error .malformedEnvelope) ∧
    (∀ W : String, decryptFromJSON "\x7b\"ciphertext\":null\x7d".data W =
      .error .malformedEnvelope) ∧
    (∀ W : String, decryptFromJSON "not json at all".data W =
      .error .malformedEnvelope) ∧
    (∀ W : String, decryptFromJSON
      "\x7b\"ciphertext\":\"!not-base64!\",\"nonce\":\"AA==\",\"salt\":\"AA==\"\x7d".data
        W = .error .malformedEnvelope) ∧
    (∀ (s : List Char) (W : String),
      decryptFromJSON s W = .error .authenticationFailed →
      ∃ env, parseEnvelopeText s = some env) := by
  refine ⟨fun W => rfl, fun W => rfl, fun W => rfl, fun W => rfl,
    parse_failure_is_malformed⟩

theorem c3_malformed_witness :
    ∃ env, parseEnvelopeText
        "\x7b\"ciphertext\":null,\"nonce\":\"AA==\",\"salt\":\"AA==\"\x7d".data =
      some env :=
  c3_malformed_rejection.2.2.2.2
    "\x7b\"ciphertext\":null,\"nonce\":\"AA==\",\"salt\":\"AA==\"\x7d".data "pw"
    (by decide)
